import Mathlib

/-!
Verification of the frump task tracker's core: domain model
(`src/domain/*`), markdown parser/serializer (`src/parser/mod.rs`),
history engine (`src/git/repository.rs`) and conflict resolution
(`src/main.rs`).  Rust strings are modelled as `List Char`; whitespace
and upper-casing follow the ASCII fragment (all concrete inputs below
are ASCII).  Machine integers (`u32`) are modelled as `Nat` with
explicit `% 2 ^ 32` where Rust arithmetic may overflow.
-/

set_option linter.unusedVariables false

deriving instance DecidableEq for Except

namespace Frump

/-- Rust strings, modelled as lists of characters. -/
abbrev Chars := List Char

/-- String-literal helper: the character list of a Lean string literal. -/
def lit (s : String) : Chars := s.toList

/-- Whitespace predicate used by Rust `trim` / `split_whitespace`
(ASCII fragment of `char::is_whitespace`). -/
def isWS (c : Char) : Bool := c = ' ' || c = '\t' || c = '\r' || c = '\n'

/-- Rust `str::trim_start` (ASCII whitespace). -/
def trimStart (s : Chars) : Chars := s.dropWhile isWS

/-- Rust `str::trim_end` (ASCII whitespace). -/
def trimEnd (s : Chars) : Chars := (s.reverse.dropWhile isWS).reverse

/-- Rust `str::trim` (ASCII whitespace). -/
def trim (s : Chars) : Chars := trimEnd (trimStart s)

/-- Rust `str::starts_with` on string patterns. -/
def startsWith (p s : Chars) : Bool := p.isPrefixOf s

/-- Fuel-driven worker for `stripPrefixAll`. -/
def stripPrefixAllGo (p : Chars) : Nat → Chars → Chars
  | 0, s => s
  | fuel + 1, s =>
    if p ≠ [] ∧ p.isPrefixOf s then stripPrefixAllGo p fuel (s.drop p.length)
    else s

/-- Rust `str::trim_start_matches` with a string pattern: repeatedly
removes the prefix `p` as long as it is present.  The fuel `s.length`
bounds the number of removals (each removes at least one character). -/
def stripPrefixAll (p : Chars) (s : Chars) : Chars := stripPrefixAllGo p s.length s

/-- ASCII upper-casing of every character (Rust `str::to_uppercase`
restricted to ASCII). -/
def toUpper (s : Chars) : Chars := s.map Char.toUpper

/-- First split of `s` at a separator character: `some (before, after)`
or `none` when the separator does not occur. -/
def splitFirst (sep : Char) : Chars → Option (Chars × Chars)
  | [] => none
  | c :: rest =>
    if c = sep then some ([], rest)
    else (splitFirst sep rest).map (fun pr => (c :: pr.1, pr.2))

/-- Rust `str::splitn(3, ' ')`: at most three pieces, empty pieces
kept, the third piece carries the rest verbatim. -/
def splitN3 (s : Chars) : List Chars :=
  match splitFirst ' ' s with
  | none => [s]
  | some (a, r) =>
    match splitFirst ' ' r with
    | none => [a, r]
    | some (b, r2) => [a, b, r2]

/-- Rust `str::split_whitespace`: maximal non-whitespace runs. -/
def splitWS (s : Chars) : List Chars :=
  (s.splitOnP isWS).filter (fun w => w ≠ [])

/-- Drop one trailing carriage return, as Rust `str::lines` does for
`\r\n` line endings. -/
def stripCR (l : Chars) : Chars :=
  if l.getLast? = some '\r' then l.dropLast else l

/-- Split at every `\n` (the pieces between the newlines; one more
piece than newlines, so never empty as a list). -/
def splitNL : Chars → List Chars
  | [] => [[]]
  | c :: rest =>
    if c = '\n' then [] :: splitNL rest
    else
      match splitNL rest with
      | [] => [[c]]
      | p :: ps => (c :: p) :: ps

/-- Worker for `rustLines` over the `\n`-separated pieces: every piece
but the last was newline-terminated (so loses a trailing `\r`), and a
final empty piece (text ending in `\n`) yields no line. -/
def rustLinesGo : List Chars → List Chars
  | [] => []
  | [p] => if p = [] then [] else [p]
  | p :: rest => stripCR p :: rustLinesGo rest

/-- Rust `str::lines`: split at `\n`, with `\r\n` line endings also
consumed; a final line ending produces no extra empty line. -/
def rustLines (s : Chars) : List Chars := rustLinesGo (splitNL s)

/-- Join a list of lines, terminating each with `\n` (the shape the
parser's header accumulation produces). -/
def joinLF (ls : List Chars) : Chars := (ls.map (fun l => l ++ ['\n'])).flatten

/-- Join with `\n` separators (Rust `[&str]::join("\n")`). -/
def joinNL : List Chars → Chars
  | [] => []
  | [l] => l
  | l :: rest => l ++ '\n' :: joinNL rest

/-- Rust `str::parse::<u32>`: optional leading `+`, one or more ASCII
digits, value below `2 ^ 32` (a checked-overflow parse of digits fails
exactly when the denoted value is out of range). -/
def parseU32 (s : Chars) : Option Nat :=
  let ds := if s.head? = some '+' then s.tail else s
  if ds ≠ [] ∧ ds.all Char.isDigit then
    let v := ds.foldl (fun a c => a * 10 + (c.toNat - 48)) 0
    if v < 2 ^ 32 then some v else none
  else none

/-- Decimal digits of a `u32` value (Rust `Display` for `u32`). -/
def natChars (n : Nat) : Chars := Nat.toDigits 10 n

/-! ## Domain model (`src/domain`) -/

/-- Error outcomes of the embedded fallible operations.  `parseError`
covers every `anyhow` error (validation and parse failures);
`panicked` marks a Rust panic reachable from safe code (an
out-of-order string slice). -/
inductive Err where
  | parseError : Err
  | panicked : Err
deriving DecidableEq, Repr

/-- `TaskId` (src/domain/task_id.rs): a `u32` wrapper. -/
structure TaskId where
  val : Nat
deriving DecidableEq, Repr

/-- `TaskId::new`: fails on zero. -/
def TaskId.new (n : Nat) : Except Err TaskId :=
  if n = 0 then .error .parseError else .ok ⟨n⟩

/-- `TaskId::next`: `self.0 + 1` in `u32` arithmetic (wraps at
`2 ^ 32`, the release-profile semantics of Rust `+`). -/
def TaskId.next (t : TaskId) : TaskId := ⟨(t.val + 1) % 2 ^ 32⟩

/-- `TaskType` (src/domain/task_type.rs). -/
inductive TaskType where
  | task
  | bug
  | issue
  | feature
  | custom (s : Chars)
deriving DecidableEq, Repr

/-- `TaskType::parse`: total, unknown tokens become `Custom`. -/
def TaskType.parse (s : Chars) : TaskType :=
  if s = lit ("Task") then .task
  else if s = lit ("Bug") then .bug
  else if s = lit ("Issue") then .issue
  else if s = lit ("Feature") then .feature
  else .custom s

/-- `TaskType::as_str`. -/
def TaskType.asStr : TaskType → Chars
  | .task => lit ("Task")
  | .bug => lit ("Bug")
  | .issue => lit ("Issue")
  | .feature => lit ("Feature")
  | .custom s => s

/-- `PropertyKey::new`'s validation (src/domain/property.rs): first
character uppercase, whitespace-split word count between 1 and 3. -/
def validKey (s : Chars) : Bool :=
  (match s with
   | [] => false
   | c :: _ => c.isUpper) &&
  (let wc := (splitWS s).length
   wc ≤ 3 && wc ≠ 0)

/-- `PropertyKey::try_parse`. -/
def PropertyKey.tryParse (s : Chars) : Option Chars :=
  if validKey s then some s else none

/-- A `Property` (validated key, value). -/
structure Property where
  key : Chars
  value : Chars
deriving DecidableEq, Repr

/-- A `Task` (src/domain/task.rs). -/
structure Task where
  id : TaskId
  taskType : TaskType
  subject : Chars
  body : Chars
  props : List Property
deriving DecidableEq, Repr

/-- `Email::new` (src/domain/team.rs): trims, requires exactly one `@`
with non-empty sides, stores the trimmed string. -/
def Email.new (s : Chars) : Except Err Chars :=
  let e := trim s
  match e.splitOn '@' with
  | [a, b] => if a = [] ∨ b = [] then .error .parseError else .ok e
  | _ => .error .parseError

/-- A `TeamMember` (src/domain/team.rs). -/
structure TeamMember where
  name : Chars
  email : Chars
  role : Option Chars
deriving DecidableEq, Repr

/-- The parsed document (src/domain/document.rs): raw header text,
team member list, task list. -/
structure FrumpDoc where
  header : Chars
  team : List TeamMember
  tasks : List Task
deriving DecidableEq, Repr

/-- `TaskCollection::find_by_id`: first task with the identifier. -/
def findById (ts : List Task) (id : TaskId) : Option Task :=
  ts.find? (fun t => t.id = id)

/-- `TaskCollection::max_id` as a raw value (`Iterator::max` over the
identifiers). -/
def maxIdVal (ts : List Task) : Option Nat :=
  (ts.map (fun t => t.id.val)).max?

/-- `TaskCollection::remove`: position of the first match, then
`Vec::remove` at that position; `none` leaves the list untouched. -/
def removeTask (ts : List Task) (id : TaskId) : Option Task × List Task :=
  match ts.findIdx? (fun t => t.id = id) with
  | none => (none, ts)
  | some i => (ts[i]?, ts.eraseIdx i)

/-! ## Parser (`src/parser/mod.rs`) -/

/-- `try_parse_property`: split at the first `:`, trim both sides,
succeed when the key validates. -/
def tryParseProperty (line : Chars) : Option (Chars × Chars) :=
  match line.findIdx? (fun c => c = ':') with
  | none => none
  | some i =>
    let keyStr := trim (line.take i)
    let value := trim (line.drop (i + 1))
    match PropertyKey.tryParse keyStr with
    | some key => some (key, value)
    | none => none

/-- State of `parse_task`'s body/property loop: the `in_body` latch,
the accumulated body lines, the accumulated properties. -/
structure PState where
  inBody : Bool
  bodyLines : List Chars
  props : List Property
deriving DecidableEq, Repr

/-- One iteration of `parse_task`'s body/property loop
(src/parser/mod.rs lines 284-301). -/
def bodyStep (s : PState) (line : Chars) : PState :=
  let t := trim line
  if t = [] then
    if s.inBody ∧ s.bodyLines ≠ [] then { s with bodyLines := s.bodyLines ++ [[]] }
    else s
  else
    match tryParseProperty t with
    | some (k, v) => { s with inBody := false, props := s.props ++ [⟨k, v⟩] }
    | none =>
      if s.inBody then { s with bodyLines := s.bodyLines ++ [t] } else s

/-- `parse_task`: heading line split with `splitn(3, ' ')`, then the
body/property loop over the remaining lines of the block. -/
def parseTask (ls : List Chars) : Except Err (Option Task) :=
  match ls with
  | [] => .ok none
  | first :: rest =>
    let heading := trim (stripPrefixAll (lit ("### ")) first)
    match splitN3 heading with
    | [] => .error .parseError
    | [_] => .error .parseError
    | p0 :: p1 :: ps =>
      match parseU32 p1 with
      | none => .error .parseError
      | some n =>
        match TaskId.new n with
        | .error e => .error e
        | .ok id =>
          let subject := match ps with
            | [] => ([] : Chars)
            | p2 :: _ => trim (stripPrefixAll (lit ("- ")) p2)
          let st := rest.foldl bodyStep ⟨true, [], []⟩
          let body := trim (joinNL st.bodyLines)
          .ok (some ⟨id, TaskType.parse p0, subject, body, st.props⟩)

/-- `parse_team_member`: strips a `* ` / `- ` marker, slices the name
before the first `<`, the email between `<` and the first `>`, and an
optional ` - Role` remainder.  When the first `>` precedes the first
`<`, the Rust slice `line[email_start + 1..email_end]` has its start
beyond its end and panics. -/
def parseTeamMember (line : Chars) : Except Err (Option TeamMember) :=
  let l := stripPrefixAll (lit ("- ")) (stripPrefixAll (lit ("* ")) line)
  match l.findIdx? (fun c => c = '<') with
  | none => .ok none
  | some emailStart =>
    match l.findIdx? (fun c => c = '>') with
    | none => .ok none
    | some emailEnd =>
      if emailEnd < emailStart + 1 then .error .panicked
      else
        let name := trim (l.take emailStart)
        let emailStr := (l.drop (emailStart + 1)).take (emailEnd - (emailStart + 1))
        match Email.new emailStr with
        | .error e => .error e
        | .ok email =>
          let role :=
            if emailEnd + 1 < l.length then
              match trim (l.drop (emailEnd + 1)) with
              | '-' :: rs => some (trim rs)
              | _ => none
            else none
          .ok (some ⟨name, email, role⟩)

/-- A line at which the header region stops: trimmed and upper-cased
it starts with `## TEAM` or `## TASKS` (src/parser/mod.rs line 83). -/
def isMarker (l : Chars) : Bool :=
  startsWith (lit ("## TEAM")) (toUpper (trim l)) ||
  startsWith (lit ("## TASKS")) (toUpper (trim l))

/-- The Team-section loop (src/parser/mod.rs lines 94-105): consume
lines until one starts (trimmed) with `## `, collecting members from
lines starting with `* ` or `- `; returns the members and the
remaining lines (beginning with the `## ` line that stopped it). -/
def teamLoop : List Chars → Except Err (List TeamMember × List Chars)
  | [] => .ok ([], [])
  | l :: rest =>
    let t := trim l
    if startsWith (lit ("## ")) t then .ok ([], l :: rest)
    else if startsWith (lit ("* ")) t || startsWith (lit ("- ")) t then
      match parseTeamMember t with
      | .error e => .error e
      | .ok none => teamLoop rest
      | .ok (some m) =>
        match teamLoop rest with
        | .error e => .error e
        | .ok (ms, r) => .ok (m :: ms, r)
    else teamLoop rest

/-- The Team phase (src/parser/mod.rs lines 92-106): runs the team
loop only when positioned at a `## TEAM` marker line. -/
def teamPhase (ls : List Chars) : Except Err (List TeamMember × List Chars) :=
  match ls with
  | [] => .ok ([], [])
  | l :: rest =>
    if startsWith (lit ("## TEAM")) (toUpper (trim l)) then teamLoop rest
    else .ok ([], ls)

/-- A line that starts a task block: trimmed it begins with `### `. -/
def isTaskHeading (l : Chars) : Bool := startsWith (lit ("### ")) (trim l)

/-- The Tasks-section loop (src/parser/mod.rs lines 112-131), written
as a single pass carrying the currently open block (`some blk`): a
heading line closes the open block and opens a new one; after the last
line the open block is closed.  Identical to the source's two nested
index loops: each block is the heading line plus the following lines
up to the next heading, and blocks are parsed left to right. -/
def tasksGo : List Chars → Option (List Chars) → Except Err (List Task)
  | [], none => .ok []
  | [], some blk =>
    (parseTask blk).map (fun o => o.toList)
  | l :: rest, none =>
    if isTaskHeading l then tasksGo rest (some [l]) else tasksGo rest none
  | l :: rest, some blk =>
    if isTaskHeading l then
      match parseTask blk with
      | .error e => .error e
      | .ok o => (tasksGo rest (some [l])).map (fun ts => o.toList ++ ts)
    else tasksGo rest (some (blk ++ [l]))

/-- The Tasks phase (src/parser/mod.rs lines 109-132): runs the tasks
loop only when positioned at a `## TASKS` marker line. -/
def tasksPhase (ls : List Chars) : Except Err (List Task) :=
  match ls with
  | [] => .ok []
  | l :: rest =>
    if startsWith (lit ("## TASKS")) (toUpper (trim l)) then tasksGo rest none
    else .ok []

/-- `parser::parse`: header lines (each re-terminated with `\n`) up to
the first marker, then the Team phase, then the Tasks phase. -/
def parse (content : Chars) : Except Err FrumpDoc :=
  let ls := rustLines content
  let header := joinLF (ls.takeWhile (fun l => !isMarker l))
  match teamPhase (ls.dropWhile (fun l => !isMarker l)) with
  | .error e => .error e
  | .ok (team, rest2) =>
    match tasksPhase rest2 with
    | .error e => .error e
    | .ok tasks => .ok ⟨header, team, tasks⟩

/-- The serialized line of one team member
(src/parser/mod.rs lines 181-185). -/
def memberLine (m : TeamMember) : Chars :=
  lit ("* ") ++ m.name ++ lit (" <") ++ m.email ++ ['>'] ++
  (match m.role with
   | some r => lit (" - ") ++ r
   | none => []) ++ ['\n']

/-- The serialized block of one task (src/parser/mod.rs lines 192-211). -/
def taskBlock (t : Task) : Chars :=
  lit ("### ") ++ t.taskType.asStr ++ [' '] ++ natChars t.id.val ++
    lit (" - ") ++ t.subject ++ ['\n'] ++
  (if t.body ≠ [] then ['\n'] ++ trim t.body ++ ['\n'] else []) ++
  (if t.props ≠ [] then
    (if t.body ≠ [] then ['\n'] else []) ++
    (t.props.map (fun p => p.key ++ lit (": ") ++ p.value ++ ['\n'])).flatten
   else []) ++ ['\n']

/-- `parser::serialize`. -/
def serialize (d : FrumpDoc) : Chars :=
  d.header ++
  (if d.team ≠ [] then
    lit ("## Team\n\n") ++ (d.team.map memberLine).flatten ++ ['\n']
   else []) ++
  lit ("## Tasks\n\n") ++ (d.tasks.map taskBlock).flatten

/-! ## History engine (`src/git/repository.rs`)

A revision exposes commit metadata and the content of `frump.md` at
that commit, or `none` when the file is absent or unreadable (a failed
`read_file_at_commit`).  Lists of revisions are given oldest first
(chronological order); `task_history` walks them in exactly that order
(it requests `Sort::TIME | Sort::REVERSE`), while `deleted_tasks`
leaves the libgit2 revwalk at its default sorting, which is reverse
chronological order — it walks the *reversed* list, newest first. -/

/-- One revision of the repository's `frump.md`. -/
structure Rev where
  hash : Chars
  author : Chars
  time : Nat
  message : Chars
  content : Option Chars
deriving DecidableEq, Repr

/-- `ChangeType`. -/
inductive ChangeType where
  | created
  | modified
  | deleted
deriving DecidableEq, Repr

/-- `TaskCommit`: commit metadata plus the classified change. -/
structure TaskCommit where
  hash : Chars
  author : Chars
  time : Nat
  message : Chars
  changeType : ChangeType
deriving DecidableEq, Repr

/-- `commit_to_info`: copies the metadata, trimming the message. -/
def commitToInfo (r : Rev) (ct : ChangeType) : TaskCommit :=
  ⟨r.hash, r.author, r.time, trim r.message, ct⟩

/-- Whether the task is present in a revision: the file is readable,
parses, and contains a task with the identifier
(src/git/repository.rs lines 95-103). -/
def present (id : TaskId) (r : Rev) : Bool :=
  match r.content with
  | none => false
  | some c =>
    match parse c with
    | .error _ => false
    | .ok doc => (findById doc.tasks id).isSome

/-- The walk of `task_history` (src/git/repository.rs lines 90-122):
previous-present state threaded through the oldest-first revisions. -/
def taskHistoryGo (id : TaskId) : List Rev → Bool → List TaskCommit
  | [], _ => []
  | r :: rest, prev =>
    let ex := present id r
    let ev : Option ChangeType :=
      if ex ∧ ¬prev then some .created
      else if ¬ex ∧ prev then some .deleted
      else if ex ∧ prev then some .modified
      else none
    match ev with
    | some ct => commitToInfo r ct :: taskHistoryGo id rest ex
    | none => taskHistoryGo id rest ex

/-- `FrumpRepo::task_history`: classified events for one identifier
over the oldest-first revision walk, starting from "not present". -/
def taskHistory (revs : List Rev) (id : TaskId) : List TaskCommit :=
  taskHistoryGo id revs false

/-- The event classification exactly as the specification words it:
starting from previous-present `false`, emit `Created` on a
false-to-true step, `Modified` on true-to-true, `Deleted` on
true-to-false, and nothing on false-to-false. -/
def specClassify : Bool → List Bool → List ChangeType
  | _, [] => []
  | false, true :: rest => .created :: specClassify true rest
  | true, true :: rest => .modified :: specClassify true rest
  | true, false :: rest => .deleted :: specClassify false rest
  | false, false :: rest => specClassify false rest

/-- All tasks of a revision's snapshot; empty when the file is absent
or does not parse (the soft-fail of the history walks). -/
def snapshotTasks (r : Rev) : List Task :=
  match r.content with
  | none => []
  | some c =>
    match parse c with
    | .error _ => []
    | .ok doc => doc.tasks

/-- Duplicate-free list of identifiers, keeping first occurrences
(set-of-identifiers semantics of the `HashSet` accumulations). -/
def dedupIds : List TaskId → List TaskId := go []
where
  go (seen : List TaskId) : List TaskId → List TaskId
    | [] => []
    | x :: r => if x ∈ seen then go seen r else x :: go (x :: seen) r

/-- Insertion into an ascending-by-value list. -/
def insertSorted (x : TaskId) : List TaskId → List TaskId
  | [] => [x]
  | y :: ys => if x.val ≤ y.val then x :: y :: ys else y :: insertSorted x ys

/-- Ascending sort of identifiers by value (the result of
`deleted.sort_by_key(|(id, _, _)| *id)` — identifiers are pairwise
distinct there, so any sort gives this unique ascending order). -/
def sortIds (l : List TaskId) : List TaskId := l.foldr insertSorted []

/-- `FrumpRepo::deleted_tasks` (src/git/repository.rs lines 131-184).
`chronoRevs` is oldest first; the walk itself visits the revisions in
libgit2's default revwalk order, newest first, so `task_info_map`
keeps for each identifier the type/subject of its first occurrence in
the *newest-first* walk.  The result is the historical identifiers
missing from the current document, ascending, each with that
remembered type and subject. -/
def deletedTasks (chronoRevs : List Rev) (current : Chars) :
    Except Err (List (TaskId × TaskType × Chars)) :=
  match parse current with
  | .error e => .error e
  | .ok curDoc =>
    let walk := chronoRevs.reverse
    let hist := (walk.map snapshotTasks).flatten
    let curIds := curDoc.tasks.map (fun t => t.id)
    let deletedIds := (dedupIds (hist.map (fun t => t.id))).filter
      (fun i => ¬ i ∈ curIds)
    .ok ((sortIds deletedIds).filterMap (fun i =>
      (hist.find? (fun t => t.id = i)).map (fun t => (i, t.taskType, t.subject))))

/-! ## Conflict resolution (`src/main.rs`, `Commands::ResolveConflicts`) -/

/-- The positions (in original order) of the tasks carrying `id`
(the entry `id_occurrences[id]`, built by `enumerate`). -/
def indicesOf (ts : List Task) (id : TaskId) : List Nat :=
  (ts.enum.filter (fun p => p.2.id = id)).map (fun p => p.1)

/-- Replace the task at one position. -/
def modifyAt : List Task → Nat → (Task → Task) → List Task
  | [], _, _ => []
  | t :: r, 0, f => f t :: r
  | t :: r, n + 1, f => t :: modifyAt r n f

/-- Identifiers occurring more than once, in first-occurrence order
(the *set* of keys of the duplicate groups; the `HashMap` iterates
them in an unspecified order, which the theorems quantify over). -/
def dupIds (ts : List Task) : List TaskId :=
  (dedupIds (ts.map (fun t => t.id))).filter
    (fun i => 2 ≤ (ts.filter (fun t => t.id = i)).length)

/-- Renumber the tasks at the given (original) positions with
consecutive fresh identifiers, recording `(old, new, subject)`
(src/main.rs lines 937-947). -/
def applyRenum : List Task → TaskId → List Nat →
    List Task × List (TaskId × TaskId × Chars)
  | ts, _, [] => (ts, [])
  | ts, nxt, i :: rest =>
    match ts[i]? with
    | none => applyRenum ts nxt rest
    | some t =>
      let done := applyRenum (modifyAt ts i (fun u => { u with id := nxt })) nxt.next rest
      (done.1, (t.id, nxt, t.subject) :: done.2)

/-- The `Commands::ResolveConflicts` renumbering pass
(src/main.rs lines 911-947), with the `HashMap` iteration order of
the duplicate groups passed in as `order`: every group keeps its first
occurrence and renumbers the rest, fresh identifiers starting at
`max_id.next()` and increasing by one per renumbered task across all
groups.  With no duplicate groups the handler returns before touching
anything; with groups but (impossibly) no tasks, `max_id` errors. -/
def resolveConflicts (order : List TaskId) (ts : List Task) :
    Except Err (List Task × List (TaskId × TaskId × Chars)) :=
  if order = [] then .ok (ts, [])
  else
    match maxIdVal ts with
    | none => .error .parseError
    | some m =>
      .ok (applyRenum ts (TaskId.next ⟨m⟩) ((order.map (fun id => (indicesOf ts id).drop 1)).flatten))

/-! ## Line-level views of the serializer (used by the round-trip
development): `serialize` emits exactly these lines, each terminated
with `\n`. -/

/-- The member line without its newline terminator. -/
def memberContent (m : TeamMember) : Chars :=
  lit ("* ") ++ m.name ++ lit (" <") ++ m.email ++ ['>'] ++
  (match m.role with
   | some r => lit (" - ") ++ r
   | none => [])

/-- The task heading line without its newline terminator. -/
def headingLine (t : Task) : Chars :=
  lit ("### ") ++ t.taskType.asStr ++ [' '] ++ natChars t.id.val ++ lit (" - ") ++ t.subject

/-- A property line without its newline terminator. -/
def propLine (p : Property) : Chars := p.key ++ lit (": ") ++ p.value

/-- The lines of one serialized task block (including the blank lines
the serializer interleaves). -/
def taskBlockLines (t : Task) : List Chars :=
  [headingLine t] ++
  (if t.body ≠ [] then [([] : Chars)] ++ splitNL t.body else []) ++
  (if t.props ≠ [] then
    (if t.body ≠ [] then [([] : Chars)] else []) ++ t.props.map propLine
   else []) ++
  [([] : Chars)]

/-- All lines of the serialized document. -/
def serLines (d : FrumpDoc) : List Chars :=
  (splitNL d.header).dropLast ++
  (if d.team ≠ [] then
    [lit ("## Team"), []] ++ d.team.map memberContent ++ [([] : Chars)]
   else []) ++
  [lit ("## Tasks"), []] ++ (d.tasks.map taskBlockLines).flatten

/-! ## Parser-output invariants.  `parse` only ever produces documents
satisfying these (proved below); they are what the round-trip theorem
needs of the document's components. -/

/-- Invariants of a parsed property. -/
def PropOK (p : Property) : Prop :=
  validKey p.key = true ∧ ':' ∉ p.key ∧ trim p.key = p.key ∧ '\n' ∉ p.key ∧
  trim p.value = p.value ∧ '\n' ∉ p.value

/-- Invariants of one line of a parsed body. -/
def BodyLineOK (l : Chars) : Prop :=
  l = [] ∨ (trim l = l ∧ l ≠ [] ∧ tryParseProperty l = none ∧ isTaskHeading l = false)

/-- Invariants of a parsed body. -/
def BodyOK (b : Chars) : Prop :=
  trim b = b ∧ ∀ l ∈ splitNL b, BodyLineOK l

/-- Invariants of a parsed task. -/
def TaskOK (t : Task) : Prop :=
  1 ≤ t.id.val ∧ t.id.val < 2 ^ 32 ∧
  t.taskType.asStr ≠ [] ∧ ' ' ∉ t.taskType.asStr ∧ '\n' ∉ t.taskType.asStr ∧
  (∀ c, t.taskType.asStr.head? = some c → isWS c = false) ∧
  TaskType.parse t.taskType.asStr = t.taskType ∧
  trim t.subject = t.subject ∧ '\n' ∉ t.subject ∧
  BodyOK t.body ∧ (∀ p ∈ t.props, PropOK p)

/-- Invariants of a parsed team member. -/
def MemberOK (m : TeamMember) : Prop :=
  trim m.name = m.name ∧ '<' ∉ m.name ∧ '>' ∉ m.name ∧ '\n' ∉ m.name ∧
  Email.new m.email = .ok m.email ∧ '>' ∉ m.email ∧ '\n' ∉ m.email ∧
  (∀ r, m.role = some r → trim r = r ∧ '\n' ∉ r)

/-- Invariants of a parsed header. -/
def HeaderOK (h : Chars) : Prop :=
  (h = [] ∨ h.getLast? = some '\n') ∧
  ∀ l ∈ (splitNL h).dropLast, isMarker l = false

/-- Invariants of a parsed document. -/
def DocOK (d : FrumpDoc) : Prop :=
  HeaderOK d.header ∧ (∀ m ∈ d.team, MemberOK m) ∧ (∀ t ∈ d.tasks, TaskOK t)

/-- The extra conditions the amended round-trip claim imposes on a
task: a non-empty subject that does not begin with `- `, and a type
token other than `###`. -/
def TaskGuard (t : Task) : Prop :=
  t.subject ≠ [] ∧ startsWith (lit ("- ")) t.subject = false ∧
  t.taskType.asStr ≠ lit ("###")

/-- The extra conditions the amended round-trip claim imposes on a
team member's name. -/
def MemberGuard (m : TeamMember) : Prop :=
  m.name ≠ lit ("*") ∧ m.name ≠ lit ("-") ∧
  startsWith (lit ("* ")) m.name = false ∧ startsWith (lit ("- ")) m.name = false

/-- The extra condition the amended round-trip claim imposes on the
header: no header line ends in a carriage return (`str::lines` strips
one on reparse). -/
def HeaderGuard (d : FrumpDoc) : Prop :=
  ∀ l ∈ (splitNL d.header).dropLast, stripCR l = l

/-- The claim's example document: two tasks sharing identifier 2
(`Fix A` first, `Fix B` second) and maximum identifier 5. -/
def exC4 : List Task :=
  [⟨⟨2⟩, .task, lit ("Fix A"), [], []⟩, ⟨⟨2⟩, .task, lit ("Fix B"), [], []⟩,
   ⟨⟨5⟩, .task, lit ("c"), [], []⟩]

/-! ## General helper lemmas -/

theorem findIdx?_shift {α} (p : α → Bool) (xs : List α) (n : Nat) :
    List.findIdx? p xs n = (List.findIdx? p xs 0).map (fun i => i + n) := by
  induction xs generalizing n with
  | nil => simp [List.findIdx?]
  | cons x xs ih =>
    by_cases h : p x
    · simp [List.findIdx?_cons, h]
    · simp only [List.findIdx?_cons, h, if_neg, ite_false]
      rw [ih (n + 1), ih 1]
      cases List.findIdx? p xs 0 with
      | none => rfl
      | some v => simp; omega

theorem findIdx?_first {α} (p : α → Bool) (ts : List α) (i : Nat) (t : α)
    (hget : ts[i]? = some t) (hp : p t = true)
    (hmin : ∀ j, j < i → ∀ u, ts[j]? = some u → p u = false) :
    List.findIdx? p ts = some i := by
  induction ts generalizing i with
  | nil => simp at hget
  | cons t0 rest ih =>
    by_cases h0 : p t0
    · have : i = 0 := by
        by_contra hne
        have h1 : 0 < i := Nat.pos_of_ne_zero hne
        have := hmin 0 h1 t0 (by simp)
        simp [h0] at this
      subst this
      simp at hget; subst hget
      simp [List.findIdx?_cons, h0]
    · cases i with
      | zero => simp at hget; subst hget; simp [hp] at h0
      | succ i' =>
        simp only [List.findIdx?_cons, h0, ite_false]
        rw [findIdx?_shift]
        have := ih i' (by simpa using hget)
          (fun j hj u hu => hmin (j + 1) (by omega) u (by simpa using hu))
        rw [this]
        rfl

theorem splitNL_ne_nil : ∀ s : Chars, splitNL s ≠ []
  | [] => by simp [splitNL]
  | c :: rest => by
    simp only [splitNL]
    split
    · simp
    · split <;> simp

theorem splitNL_no_nl {s : Chars} (h : '\n' ∉ s) : splitNL s = [s] := by
  induction s with
  | nil => rfl
  | cons c rest ih =>
    simp only [List.mem_cons, not_or] at h
    have hc : ¬ c = '\n' := fun hc => h.1 hc.symm
    simp [splitNL, hc, ih h.2]

theorem splitNL_append_nl {xs : Chars} (h : '\n' ∉ xs) (rest : Chars) :
    splitNL (xs ++ '\n' :: rest) = xs :: splitNL rest := by
  induction xs with
  | nil => simp [splitNL]
  | cons c xs ih =>
    simp only [List.mem_cons, not_or] at h
    have hc : ¬ c = '\n' := fun hc => h.1 hc.symm
    simp [splitNL, hc, ih h.2]

theorem rustLinesGo_cons {l : Chars} {ps : List Chars} (h : ps ≠ []) :
    rustLinesGo (l :: ps) = stripCR l :: rustLinesGo ps := by
  cases ps with
  | nil => simp at h
  | cons p ps => rfl

theorem rustLines_joinLF_append {hls : List Chars} (h : ∀ l ∈ hls, '\n' ∉ l) (rest : Chars) :
    rustLines (joinLF hls ++ rest) = hls.map stripCR ++ rustLines rest := by
  induction hls with
  | nil => simp [joinLF]
  | cons l hls ih =>
    have h1 : '\n' ∉ l := h l (by simp)
    have h2 : ∀ x ∈ hls, '\n' ∉ x := fun x hx => h x (by simp [hx])
    have he : joinLF (l :: hls) ++ rest = l ++ '\n' :: (joinLF hls ++ rest) := by
      simp [joinLF]
    rw [he]
    unfold rustLines
    rw [splitNL_append_nl h1, rustLinesGo_cons (splitNL_ne_nil _)]
    simp only [List.map_cons, List.cons_append]
    rw [← rustLines, ih h2]
    rfl

theorem takeWhile_append_all {α} {p : α → Bool} {A : List α} (h : ∀ a ∈ A, p a = true)
    (B : List α) : List.takeWhile p (A ++ B) = A ++ List.takeWhile p B := by
  induction A with
  | nil => simp
  | cons a A ih =>
    rw [List.cons_append, List.takeWhile_cons]
    simp [h a (by simp), ih (fun x hx => h x (by simp [hx]))]

theorem dropWhile_append_all {α} {p : α → Bool} {A : List α} (h : ∀ a ∈ A, p a = true)
    (B : List α) : List.dropWhile p (A ++ B) = List.dropWhile p B := by
  induction A with
  | nil => simp
  | cons a A ih =>
    rw [List.cons_append, List.dropWhile_cons]
    simp [h a (by simp), ih (fun x hx => h x (by simp [hx]))]

/-! ## Trim and prefix lemmas -/

theorem isWS_false_of_isUpper {c : Char} (h : c.isUpper = true) : isWS c = false := by
  by_cases h1 : c = ' '
  · subst h1; exact absurd h (by decide)
  by_cases h2 : c = '\t'
  · subst h2; exact absurd h (by decide)
  by_cases h3 : c = '\r'
  · subst h3; exact absurd h (by decide)
  by_cases h4 : c = '\n'
  · subst h4; exact absurd h (by decide)
  simp [isWS, h1, h2, h3, h4]

theorem isWS_false_of_isDigit {c : Char} (h : c.isDigit = true) : isWS c = false := by
  by_cases h1 : c = ' '
  · subst h1; exact absurd h (by decide)
  by_cases h2 : c = '\t'
  · subst h2; exact absurd h (by decide)
  by_cases h3 : c = '\r'
  · subst h3; exact absurd h (by decide)
  by_cases h4 : c = '\n'
  · subst h4; exact absurd h (by decide)
  simp [isWS, h1, h2, h3, h4]

theorem trimStart_cons {c : Char} {s : Chars} (h : isWS c = false) :
    trimStart (c :: s) = c :: s := by
  simp [trimStart, List.dropWhile_cons, h]

theorem trimStart_append {a : Chars} (h : trimStart a ≠ []) (b : Chars) :
    trimStart (a ++ b) = trimStart a ++ b := by
  unfold trimStart at *
  rw [List.dropWhile_append]
  simp only [List.isEmpty_iff]
  rw [if_neg h]

theorem trimEnd_append_right {b : Chars} (h : trimEnd b ≠ []) (a : Chars) :
    trimEnd (a ++ b) = a ++ trimEnd b := by
  unfold trimEnd at *
  rw [List.reverse_append, List.dropWhile_append]
  simp only [List.isEmpty_iff]
  rw [if_neg (by
    intro he
    exact h (by rw [he]; rfl))]
  rw [List.reverse_append, List.reverse_reverse]

theorem trimEnd_concat_ws {c : Char} (h : isWS c = true) (a : Chars) :
    trimEnd (a ++ [c]) = trimEnd a := by
  unfold trimEnd
  rw [List.reverse_append]
  simp [List.dropWhile_cons, h]

theorem trimEnd_concat {c : Char} (h : isWS c = false) (a : Chars) :
    trimEnd (a ++ [c]) = a ++ [c] := by
  unfold trimEnd
  rw [List.reverse_append]
  simp [List.dropWhile_cons, h]

theorem head?_dropWhile {p : Char → Bool} {s : Chars} {c : Char}
    (h : (s.dropWhile p).head? = some c) : p c = false := by
  induction s with
  | nil => simp at h
  | cons a r ih =>
    rw [List.dropWhile_cons] at h
    by_cases hp : p a
    · rw [if_pos hp] at h
      exact ih h
    · rw [if_neg hp] at h
      simp only [List.head?_cons, Option.some.injEq] at h
      subst h
      simpa using hp

theorem trimStart_head? {s : Chars} {c : Char} (h : (trimStart s).head? = some c) :
    isWS c = false := head?_dropWhile h

theorem trimEnd_pref (s : Chars) : trimEnd s <+: s := by
  have := (List.dropWhile_suffix (l := s.reverse) isWS).reverse
  rwa [List.reverse_reverse] at this

theorem head?_of_prefix {a b : Chars} (h : a <+: b) (hne : a ≠ []) : b.head? = a.head? := by
  obtain ⟨t, rfl⟩ := h
  rw [List.head?_append]
  cases a with
  | nil => exact absurd rfl hne
  | cons x r => rfl

theorem trim_head? {s : Chars} {c : Char} (h : (trim s).head? = some c) : isWS c = false := by
  unfold trim at h
  have hne : trimEnd (trimStart s) ≠ [] := by
    intro he
    rw [he] at h
    simp at h
  have h2 := head?_of_prefix (trimEnd_pref (trimStart s)) hne
  rw [h] at h2
  exact trimStart_head? h2

theorem trimEnd_getLast? {s : Chars} {c : Char} (h : (trimEnd s).getLast? = some c) :
    isWS c = false := by
  unfold trimEnd at h
  rw [List.getLast?_reverse] at h
  exact head?_dropWhile h

theorem trim_getLast? {s : Chars} {c : Char} (h : (trim s).getLast? = some c) :
    isWS c = false := trimEnd_getLast? h

theorem trim_eq_self_of {s : Chars}
    (hh : ∀ c, s.head? = some c → isWS c = false)
    (hl : ∀ c, s.getLast? = some c → isWS c = false) : trim s = s := by
  cases hs : s with
  | nil => rfl
  | cons c r =>
    unfold trim
    rw [trimStart_cons (hh c (by rw [hs]; rfl))]
    rcases List.eq_nil_or_concat (c :: r) with he | ⟨L, b, he⟩
    · simp at he
    · rw [List.concat_eq_append] at he
      rw [he]
      exact trimEnd_concat (hl b (by rw [hs, he, List.getLast?_concat])) L

theorem trim_idem (s : Chars) : trim (trim s) = trim s :=
  trim_eq_self_of (fun c h => trim_head? h) (fun c h => trim_getLast? h)

theorem trim_sublist (s : Chars) : (trim s).Sublist s := by
  unfold trim trimEnd trimStart
  refine List.Sublist.trans ?_ (List.dropWhile_sublist isWS)
  have := (List.dropWhile_sublist (l := (s.dropWhile isWS).reverse) isWS).reverse
  rwa [List.reverse_reverse] at this

theorem mem_of_mem_trim {x : Char} {s : Chars} (h : x ∈ trim s) : x ∈ s :=
  List.Sublist.mem h (trim_sublist s)

theorem trim_append_nl (x : Chars) : trim (x ++ ['\n']) = trim x := by
  unfold trim
  by_cases he : trimStart x = []
  · have h1 : trimStart (x ++ ['\n']) = [] := by
      unfold trimStart at *
      rw [List.dropWhile_append]
      simp only [he, List.isEmpty_nil, if_true]
      decide
    rw [h1, he]
  · rw [trimStart_append he, trimEnd_concat_ws (by decide)]

theorem trim_nil : trim [] = [] := rfl

/-! ## stripPrefixAll lemmas -/

theorem stripPrefixAllGo_fuel (p : Chars) :
    ∀ (f1 : Nat), ∀ {s : Chars} (f2 : Nat), s.length ≤ f1 → s.length ≤ f2 →
      stripPrefixAllGo p f1 s = stripPrefixAllGo p f2 s := by
  intro f1
  induction f1 with
  | zero =>
    intro s f2 h1 h2
    have : s = [] := List.length_eq_zero.mp (Nat.le_zero.mp h1)
    subst this
    cases f2 with
    | zero => rfl
    | succ f2 =>
      simp only [stripPrefixAllGo]
      rw [if_neg]
      rintro ⟨hp, hpre⟩
      rw [List.isPrefixOf_iff_prefix] at hpre
      exact hp (List.prefix_nil.mp hpre)
  | succ f1 ih =>
    intro s f2 h1 h2
    cases f2 with
    | zero =>
      have : s = [] := List.length_eq_zero.mp (Nat.le_zero.mp h2)
      subst this
      simp only [stripPrefixAllGo]
      rw [if_neg]
      rintro ⟨hp, hpre⟩
      rw [List.isPrefixOf_iff_prefix] at hpre
      exact hp (List.prefix_nil.mp hpre)
    | succ f2 =>
      simp only [stripPrefixAllGo]
      by_cases hc : p ≠ [] ∧ p.isPrefixOf s
      · rw [if_pos hc, if_pos hc]
        have hplen : 1 ≤ p.length := by
          cases hp : p with
          | nil => exact absurd hp hc.1
          | cons a b => simp
        have hd : (s.drop p.length).length ≤ f1 := by
          rw [List.length_drop]
          omega
        have hd2 : (s.drop p.length).length ≤ f2 := by
          rw [List.length_drop]
          omega
        exact ih _ hd hd2
      · rw [if_neg hc, if_neg hc]

theorem stripPrefixAll_not_prefix {p s : Chars} (h : p.isPrefixOf s = false) :
    stripPrefixAll p s = s := by
  unfold stripPrefixAll
  cases hl : s.length with
  | zero => rfl
  | succ n =>
    simp only [stripPrefixAllGo]
    rw [if_neg]
    rintro ⟨_, hpre⟩
    rw [h] at hpre
    exact absurd hpre (by simp)

theorem stripPrefixAll_step {p s : Chars} (hp : p ≠ []) (hpre : p.isPrefixOf s = true) :
    stripPrefixAll p s = stripPrefixAll p (s.drop p.length) := by
  unfold stripPrefixAll
  have hsne : s ≠ [] := by
    intro he
    subst he
    rw [List.isPrefixOf_iff_prefix] at hpre
    exact hp (List.prefix_nil.mp hpre)
  cases hl : s.length with
  | zero => exact absurd (List.length_eq_zero.mp hl) hsne
  | succ n =>
    simp only [stripPrefixAllGo]
    rw [if_pos ⟨hp, hpre⟩]
    have hplen : 1 ≤ p.length := by
      cases hq : p with
      | nil => exact absurd hq hp
      | cons a b => simp
    apply stripPrefixAllGo_fuel
    · rw [List.length_drop]
      omega
    · rw [List.length_drop]

theorem stripPrefixAll_append {p y : Chars} (hp : p ≠ []) (h : p.isPrefixOf y = false) :
    stripPrefixAll p (p ++ y) = y := by
  rw [stripPrefixAll_step hp (by
    rw [List.isPrefixOf_iff_prefix]
    exact List.prefix_append p y)]
  rw [List.drop_left, stripPrefixAll_not_prefix h]

/-! ## splitFirst and splitN3 lemmas -/

theorem splitFirst_none_iff {sep : Char} {s : Chars} :
    splitFirst sep s = none ↔ sep ∉ s := by
  induction s with
  | nil => simp [splitFirst]
  | cons c r ih =>
    simp only [splitFirst, List.mem_cons]
    by_cases hc : c = sep
    · subst hc
      simp
    · rw [if_neg hc, Option.map_eq_none', ih]
      constructor
      · rintro h (he | hm)
        · exact hc he.symm
        · exact h hm
      · intro h hm
        exact h (Or.inr hm)

theorem splitFirst_append {sep : Char} {a : Chars} (h : sep ∉ a) (r : Chars) :
    splitFirst sep (a ++ sep :: r) = some (a, r) := by
  induction a with
  | nil => simp [splitFirst]
  | cons c cs ih =>
    simp only [List.mem_cons, not_or] at h
    have hcc : ¬ c = sep := fun hc => h.1 hc.symm
    rw [List.cons_append]
    simp only [splitFirst]
    rw [if_neg hcc, ih h.2]
    rfl

theorem splitFirst_eq_some {sep : Char} {s a r : Chars}
    (h : splitFirst sep s = some (a, r)) : s = a ++ sep :: r ∧ sep ∉ a := by
  induction s generalizing a r with
  | nil => simp [splitFirst] at h
  | cons c cs ih =>
    simp only [splitFirst] at h
    by_cases hc : c = sep
    · subst hc
      rw [if_pos rfl] at h
      cases h
      exact ⟨rfl, by simp⟩
    · rw [if_neg hc] at h
      rcases hs : splitFirst sep cs with _ | ⟨pa, pb⟩
      · rw [hs] at h
        simp at h
      · rw [hs] at h
        simp only [Option.map_some'] at h
        cases h
        obtain ⟨he, hnm⟩ := ih hs
        refine ⟨by rw [List.cons_append, ← he], ?_⟩
        simp only [List.mem_cons, not_or]
        exact ⟨fun hce => hc hce.symm, hnm⟩

theorem splitN3_parts {T D : Chars} (hT : ' ' ∉ T) (hD : ' ' ∉ D) (R : Chars) :
    splitN3 (T ++ ' ' :: (D ++ ' ' :: R)) = [T, D, R] := by
  unfold splitN3
  rw [splitFirst_append hT]
  dsimp only
  rw [splitFirst_append hD]

/-! ## Decimal digits round trip -/

theorem digitChar_isDigit {m : Nat} (h : m < 10) : (Nat.digitChar m).isDigit = true := by
  interval_cases m <;> decide

theorem digitChar_toNat {m : Nat} (h : m < 10) : (Nat.digitChar m).toNat - 48 = m := by
  interval_cases m <;> decide

theorem toDigitsCore_acc (f : Nat) : ∀ (n : Nat) (ds : List Char),
    Nat.toDigitsCore 10 f n ds = Nat.toDigitsCore 10 f n [] ++ ds := by
  induction f with
  | zero => intro n ds; rfl
  | succ f ih =>
    intro n ds
    simp only [Nat.toDigitsCore]
    by_cases h : n / 10 = 0
    · rw [if_pos h, if_pos h]
      rfl
    · rw [if_neg h, if_neg h]
      rw [ih (n / 10) [(n % 10).digitChar], ih (n / 10) ((n % 10).digitChar :: ds)]
      simp

theorem toDigitsCore_fuel : ∀ (n f1 f2 : Nat), n < f1 → n < f2 →
    Nat.toDigitsCore 10 f1 n [] = Nat.toDigitsCore 10 f2 n [] := by
  intro n
  induction n using Nat.strong_induction_on with
  | _ n ih =>
    intro f1 f2 h1 h2
    cases f1 with
    | zero => omega
    | succ f1 =>
      cases f2 with
      | zero => omega
      | succ f2 =>
        simp only [Nat.toDigitsCore]
        by_cases h : n / 10 = 0
        · rw [if_pos h, if_pos h]
        · rw [if_neg h, if_neg h]
          rw [toDigitsCore_acc f1, toDigitsCore_acc f2]
          have hlt : n / 10 < n := Nat.div_lt_self (by omega) (by omega)
          rw [ih (n / 10) hlt f1 f2 (by omega) (by omega)]

theorem toDigits_small {n : Nat} (h : n < 10) : Nat.toDigits 10 n = [Nat.digitChar n] := by
  unfold Nat.toDigits
  simp only [Nat.toDigitsCore]
  rw [if_pos (by omega), Nat.mod_eq_of_lt h]

theorem toDigits_step {n : Nat} (h : 10 ≤ n) :
    Nat.toDigits 10 n = Nat.toDigits 10 (n / 10) ++ [Nat.digitChar (n % 10)] := by
  unfold Nat.toDigits
  conv_lhs => rw [show n + 1 = (n) + 1 from rfl]
  simp only [Nat.toDigitsCore]
  rw [if_neg (by omega)]
  rw [toDigitsCore_acc]
  congr 1
  exact toDigitsCore_fuel (n / 10) n (n / 10 + 1)
    (lt_of_lt_of_le (Nat.div_lt_self (by omega) (by omega)) (by omega)) (by omega)

theorem natChars_all_digit (n : Nat) : ∀ c ∈ natChars n, c.isDigit = true := by
  unfold natChars
  induction n using Nat.strong_induction_on with
  | _ n ih =>
    by_cases h : n < 10
    · rw [toDigits_small h]
      intro c hc
      simp only [List.mem_singleton] at hc
      subst hc
      exact digitChar_isDigit h
    · rw [toDigits_step (by omega)]
      intro c hc
      rw [List.mem_append] at hc
      rcases hc with hc | hc
      · exact ih (n / 10) (Nat.div_lt_self (by omega) (by omega)) c hc
      · simp only [List.mem_singleton] at hc
        subst hc
        exact digitChar_isDigit (Nat.mod_lt n (by omega))
    
theorem natChars_ne_nil (n : Nat) : natChars n ≠ [] := by
  unfold natChars
  by_cases h : n < 10
  · rw [toDigits_small h]
    simp
  · rw [toDigits_step (by omega)]
    simp

theorem val10_natChars (n : Nat) :
    (natChars n).foldl (fun a c => a * 10 + (c.toNat - 48)) 0 = n := by
  unfold natChars
  induction n using Nat.strong_induction_on with
  | _ n ih =>
    by_cases h : n < 10
    · rw [toDigits_small h]
      simp only [List.foldl_cons, List.foldl_nil]
      rw [digitChar_toNat h]
      omega
    · rw [toDigits_step (by omega)]
      rw [List.foldl_append]
      rw [ih (n / 10) (Nat.div_lt_self (by omega) (by omega))]
      simp only [List.foldl_cons, List.foldl_nil]
      rw [digitChar_toNat (Nat.mod_lt n (by omega))]
      omega

theorem isDigit_ne_plus {c : Char} (h : c.isDigit = true) : c ≠ '+' := by
  intro he
  subst he
  exact absurd h (by decide)

theorem isDigit_ne_space {c : Char} (h : c.isDigit = true) : c ≠ ' ' := by
  intro he
  subst he
  exact absurd h (by decide)

theorem isDigit_ne_nl {c : Char} (h : c.isDigit = true) : c ≠ '\n' := by
  intro he
  subst he
  exact absurd h (by decide)

theorem parseU32_natChars {n : Nat} (h : n < 2 ^ 32) : parseU32 (natChars n) = some n := by
  unfold parseU32
  have hne := natChars_ne_nil n
  have hdig := natChars_all_digit n
  have hds : (if (natChars n).head? = some '+' then (natChars n).tail else natChars n) =
      natChars n := by
    rw [if_neg]
    intro hh
    cases hnc : natChars n with
    | nil => exact hne hnc
    | cons c r =>
      rw [hnc] at hh
      simp only [List.head?_cons, Option.some.injEq] at hh
      exact isDigit_ne_plus (hdig c (by rw [hnc]; simp)) hh
  rw [hds]
  rw [if_pos ⟨hne, List.all_eq_true.mpr (fun c hc => hdig c hc)⟩]
  rw [val10_natChars]
  rw [if_pos h]

/-! ## findIdx? computations -/

theorem findIdx?_append_none {α} {p : α → Bool} {a : List α}
    (h : ∀ x ∈ a, p x = false) (b : List α) :
    List.findIdx? p (a ++ b) = (List.findIdx? p b).map (fun i => i + a.length) := by
  induction a with
  | nil => simp
  | cons x xs ih =>
    rw [List.cons_append, List.findIdx?_cons]
    rw [if_neg (by simp [h x (by simp)])]
    rw [findIdx?_shift, ih (fun y hy => h y (by simp [hy]))]
    cases List.findIdx? p b with
    | none => simp
    | some v =>
      simp
      omega

theorem findIdx?_at {α} {p : α → Bool} {a : List α} {c : α}
    (h : ∀ x ∈ a, p x = false) (hc : p c = true) (b : List α) :
    List.findIdx? p (a ++ c :: b) = some a.length := by
  rw [findIdx?_append_none h, List.findIdx?_cons, if_pos hc]
  simp

theorem take_findIdx? {α} {p : α → Bool} {l : List α} {j : Nat}
    (h : List.findIdx? p l = some j) : ∀ x ∈ l.take j, p x = false := by
  induction l generalizing j with
  | nil => simp
  | cons c r ih =>
    rw [List.findIdx?_cons] at h
    by_cases hc : p c
    · rw [if_pos hc] at h
      cases h
      simp
    · rw [if_neg hc] at h
      rw [findIdx?_shift] at h
      cases hr : List.findIdx? p r with
      | none => rw [hr] at h; simp at h
      | some j' =>
        rw [hr] at h
        simp only [Option.map_some', Option.some.injEq] at h
        subst h
        intro x hx
        rw [List.take_succ_cons, List.mem_cons] at hx
        rcases hx with rfl | hx
        · simpa using hc
        · exact ih hr x hx

/-! ## joinNL/splitNL algebra -/

theorem joinNL_cons {l : Chars} {rest : List Chars} (h : rest ≠ []) :
    joinNL (l :: rest) = l ++ '\n' :: joinNL rest := by
  cases rest with
  | nil => exact absurd rfl h
  | cons a b => rfl

theorem splitNL_mem_no_nl (s : Chars) : ∀ p ∈ splitNL s, '\n' ∉ p := by
  induction s with
  | nil =>
    intro p hp
    simp only [splitNL, List.mem_singleton] at hp
    subst hp
    simp
  | cons c r ih =>
    intro p hp
    simp only [splitNL] at hp
    by_cases hc : c = '\n'
    · rw [if_pos hc] at hp
      rcases List.mem_cons.mp hp with rfl | hp
      · simp
      · exact ih p hp
    · rw [if_neg hc] at hp
      cases hs : splitNL r with
      | nil => exact absurd hs (splitNL_ne_nil r)
      | cons q qs =>
        rw [hs] at hp
        rcases List.mem_cons.mp hp with rfl | hp
        · intro hmem
          rcases List.mem_cons.mp hmem with he | hmem
          · exact hc he.symm
          · exact ih q (by rw [hs]; simp) hmem
        · exact ih p (by rw [hs]; simp [hp])

theorem joinNL_splitNL (s : Chars) : joinNL (splitNL s) = s := by
  induction s with
  | nil => rfl
  | cons c r ih =>
    simp only [splitNL]
    by_cases hc : c = '\n'
    · rw [if_pos hc, joinNL_cons (splitNL_ne_nil r), ih, hc]
      rfl
    · rw [if_neg hc]
      cases hs : splitNL r with
      | nil => exact absurd hs (splitNL_ne_nil r)
      | cons q qs =>
        cases qs with
        | nil =>
          rw [hs] at ih
          simp only [joinNL] at ih ⊢
          rw [ih]
        | cons q2 qs2 =>
          rw [hs] at ih
          rw [joinNL_cons (show (q2 :: qs2 : List Chars) ≠ [] by simp)] at ih
          rw [joinNL_cons (show (q2 :: qs2 : List Chars) ≠ [] by simp)]
          rw [List.cons_append, ih]

theorem splitNL_joinNL {ls : List Chars} (h : ∀ l ∈ ls, '\n' ∉ l) (hne : ls ≠ []) :
    splitNL (joinNL ls) = ls := by
  induction ls with
  | nil => exact absurd rfl hne
  | cons l rest ih =>
    cases hr : rest with
    | nil =>
      simp only [joinNL]
      exact splitNL_no_nl (h l (by simp))
    | cons a b =>
      rw [← hr, joinNL_cons (by rw [hr]; simp)]
      rw [splitNL_append_nl (h l (by simp))]
      rw [ih (fun x hx => h x (by simp [hx])) (by rw [hr]; simp)]

theorem joinNL_concat_nil {ls : List Chars} (h : ls ≠ []) :
    joinNL (ls ++ [([] : Chars)]) = joinNL ls ++ ['\n'] := by
  induction ls with
  | nil => exact absurd rfl h
  | cons l rest ih =>
    cases hr : rest with
    | nil => rfl
    | cons a b =>
      rw [← hr, List.cons_append, joinNL_cons (by simp), joinNL_cons (by rw [hr]; simp)]
      rw [ih (by rw [hr]; simp)]
      simp

/-! ## Reconstruction lemmas for serialized pieces -/

theorem joinLF_append (a b : List Chars) : joinLF (a ++ b) = joinLF a ++ joinLF b := by
  simp [joinLF]

theorem joinLF_splitNL (s : Chars) : joinLF (splitNL s) = s ++ ['\n'] := by
  induction s with
  | nil => rfl
  | cons c r ih =>
    simp only [splitNL]
    by_cases hc : c = '\n'
    · rw [if_pos hc]
      simp only [joinLF, List.map_cons, List.flatten_cons] at ih ⊢
      rw [ih, hc]
      rfl
    · rw [if_neg hc]
      cases hs : splitNL r with
      | nil => exact absurd hs (splitNL_ne_nil r)
      | cons q qs =>
        rw [hs] at ih
        simp only [joinLF, List.map_cons, List.flatten_cons] at ih ⊢
        simp only [List.cons_append]
        rw [ih]

theorem getLast?_mem {α} {l : List α} {a : α} (h : l.getLast? = some a) : a ∈ l := by
  have h2 : l.reverse.head? = some a := by rw [List.head?_reverse, h]
  cases hr : l.reverse with
  | nil => rw [hr] at h2; simp at h2
  | cons x xs =>
    rw [hr] at h2
    simp only [List.head?_cons, Option.some.injEq] at h2
    subst h2
    exact List.mem_reverse.mp (by rw [hr]; simp)

theorem header_reconstruct : ∀ {h : Chars}, (h = [] ∨ h.getLast? = some '\n') →
    joinLF ((splitNL h).dropLast) = h := by
  intro h
  induction h with
  | nil => intro _; rfl
  | cons c r ih =>
    intro hOK
    rcases hOK with he | hlast
    · simp at he
    · have hlast2 : r ≠ [] → r.getLast? = some '\n' := by
        intro hrne
        cases hr : r with
        | nil => exact absurd hr hrne
        | cons a b =>
          rw [hr] at hlast
          rwa [List.getLast?_cons_cons] at hlast
      simp only [splitNL]
      by_cases hc : c = '\n'
      · rw [if_pos hc]
        cases hr : r with
        | nil =>
          subst hc
          rfl
        | cons a b =>
          rw [← hr]
          have hrne : r ≠ [] := by rw [hr]; simp
          rw [List.dropLast_cons_of_ne_nil (splitNL_ne_nil r)]
          have := ih (Or.inr (hlast2 hrne))
          simp only [joinLF, List.map_cons, List.flatten_cons] at this ⊢
          rw [this, hc]
          rfl
      · cases hr : r with
        | nil =>
          rw [hr] at hlast
          simp only [List.getLast?_singleton, Option.some.injEq] at hlast
          exact absurd hlast hc
        | cons a b =>
          rw [← hr]
          have hrne : r ≠ [] := by rw [hr]; simp
          rw [if_neg hc]
          cases hs : splitNL r with
          | nil => exact absurd hs (splitNL_ne_nil r)
          | cons q qs =>
            have hqs : qs ≠ [] := by
              intro hqnil
              subst hqnil
              have hjr : joinNL (splitNL r) = r := joinNL_splitNL r
              rw [hs] at hjr
              simp only [joinNL] at hjr
              have hnn : '\n' ∉ q := splitNL_mem_no_nl r q (by rw [hs]; simp)
              rw [hjr] at hnn
              exact hnn (getLast?_mem (hlast2 hrne))
            rw [List.dropLast_cons_of_ne_nil hqs]
            have := ih (Or.inr (hlast2 hrne))
            rw [hs, List.dropLast_cons_of_ne_nil hqs] at this
            simp only [joinLF, List.map_cons, List.flatten_cons] at this ⊢
            simp only [List.cons_append, List.append_assoc] at this ⊢
            rw [this]

/-! ## Trimmed-string utilities -/

theorem trimStart_trim (s : Chars) : trimStart (trim s) = trim s := by
  cases ht : trim s with
  | nil => rfl
  | cons c r => exact trimStart_cons (trim_head? (by rw [ht]; rfl))

theorem trimEnd_trim (s : Chars) : trimEnd (trim s) = trim s := by
  rcases List.eq_nil_or_concat (trim s) with he | ⟨L, b, he⟩
  · rw [he]; rfl
  · rw [List.concat_eq_append] at he
    rw [he]
    exact trimEnd_concat (trim_getLast? (by rw [he, List.getLast?_concat])) L

theorem trimStart_eq_self {s : Chars} (h : trim s = s) : trimStart s = s := by
  conv_lhs => rw [← h]
  rw [trimStart_trim, h]

theorem trimEnd_eq_self {s : Chars} (h : trim s = s) : trimEnd s = s := by
  conv_lhs => rw [← h]
  rw [trimEnd_trim, h]

theorem head?_not_ws_of_trimmed {s : Chars} (h : trim s = s) :
    ∀ c, s.head? = some c → isWS c = false := by
  intro c hc
  exact trim_head? (by rw [h]; exact hc)

theorem getLast?_not_ws_of_trimmed {s : Chars} (h : trim s = s) :
    ∀ c, s.getLast? = some c → isWS c = false := by
  intro c hc
  exact trim_getLast? (by rw [h]; exact hc)

theorem head?_append_left {a : Chars} (h : a ≠ []) (b : Chars) :
    (a ++ b).head? = a.head? := by
  cases a with
  | nil => exact absurd rfl h
  | cons c r => rfl

theorem getLast?_append_right {b : Chars} (h : b ≠ []) (a : Chars) :
    (a ++ b).getLast? = b.getLast? := by
  rw [List.getLast?_append]
  rcases List.eq_nil_or_concat b with he | ⟨L, x, he⟩
  · exact absurd he h
  · rw [List.concat_eq_append] at he
    rw [he, List.getLast?_concat]
    rfl

theorem validKey_head {k : Chars} (h : validKey k = true) :
    ∃ c r, k = c :: r ∧ c.isUpper = true := by
  cases k with
  | nil => simp [validKey] at h
  | cons c r =>
    simp only [validKey, Bool.and_eq_true] at h
    exact ⟨c, r, rfl, h.1⟩

/-! ## Property-line round trip -/

theorem tryParseProperty_propLine {p : Property} (hOK : PropOK p) :
    trim (propLine p) ≠ [] ∧ tryParseProperty (trim (propLine p)) = some (p.key, p.value) := by
  obtain ⟨hvk, hcol, hktrim, hknl, hvtrim, hvnl⟩ := hOK
  obtain ⟨c, r, hk, hup⟩ := validKey_head hvk
  have hkne : p.key ≠ [] := by rw [hk]; simp
  have hkey_nocol : ∀ x ∈ p.key, decide (x = ':') = false := by
    intro x hx
    simp only [decide_eq_false_iff_not]
    intro he
    subst he
    exact hcol hx
  have hfind : ∀ (X : Chars), List.findIdx? (fun c => c = ':') (p.key ++ ':' :: X) =
      some p.key.length := fun X => findIdx?_at hkey_nocol (by simp) X
  have hkeyback : ∀ (X : Chars), trim ((p.key ++ ':' :: X).take p.key.length) = p.key := by
    intro X
    rw [show (p.key ++ ':' :: X).take p.key.length = p.key from List.take_left p.key (':' :: X)]
    exact hktrim
  by_cases hv : p.value = []
  · have hshape : propLine p = p.key ++ [':', ' '] := by
      simp [propLine, lit, hv]
    have h1 : trimStart (propLine p) = propLine p := by
      rw [hshape, trimStart_append (by rw [trimStart_eq_self hktrim]; exact hkne)]
      rw [trimStart_eq_self hktrim]
    have h2 : trim (propLine p) = p.key ++ [':'] := by
      unfold trim
      rw [h1, hshape]
      rw [show p.key ++ [':', ' '] = (p.key ++ [':']) ++ [' '] by simp]
      rw [trimEnd_concat_ws (by decide)]
      exact trimEnd_concat (by decide) p.key
    rw [h2]
    refine ⟨by simp, ?_⟩
    unfold tryParseProperty
    rw [show p.key ++ [':'] = p.key ++ ':' :: ([] : Chars) from rfl, hfind []]
    dsimp only
    rw [hkeyback []]
    have hdrop : (p.key ++ ':' :: ([] : Chars)).drop (p.key.length + 1) = [] := by
      apply List.drop_eq_nil_of_le
      simp
    rw [hdrop]
    unfold PropertyKey.tryParse
    rw [if_pos hvk]
    rw [hv]
    rfl
  · have hshape : propLine p = p.key ++ ':' :: ' ' :: p.value := by
      simp [propLine, lit]
    have htr : trim (propLine p) = propLine p := by
      apply trim_eq_self_of
      · intro x hx
        rw [hshape, head?_append_left hkne] at hx
        rw [hk] at hx
        simp only [List.head?_cons, Option.some.injEq] at hx
        subst hx
        exact isWS_false_of_isUpper hup
      · intro x hx
        rw [hshape, getLast?_append_right (by simp) p.key] at hx
        rw [show (':' :: ' ' :: p.value : Chars) = [':', ' '] ++ p.value from rfl] at hx
        rw [getLast?_append_right hv [':', ' ']] at hx
        exact getLast?_not_ws_of_trimmed hvtrim x hx
    rw [htr]
    constructor
    · rw [hshape]
      simp [hkne]
    · unfold tryParseProperty
      rw [hshape, hfind (' ' :: p.value)]
      dsimp only
      rw [hkeyback (' ' :: p.value)]
      have hdrop : (p.key ++ ':' :: ' ' :: p.value).drop (p.key.length + 1) = ' ' :: p.value := by
        rw [show p.key ++ ':' :: ' ' :: p.value = (p.key ++ [':']) ++ (' ' :: p.value) by simp]
        rw [show p.key.length + 1 = (p.key ++ [':']).length by simp]
        exact List.drop_left _ _
      rw [hdrop]
      have hsp : trim (' ' :: p.value) = p.value := by
        unfold trim
        rw [show trimStart (' ' :: p.value) = trimStart p.value by
          unfold trimStart
          rw [List.dropWhile_cons]
          rw [if_pos (by decide)]]
        rw [trimStart_eq_self hvtrim]
        exact trimEnd_eq_self hvtrim
      rw [hsp]
      unfold PropertyKey.tryParse
      rw [if_pos hvk]



/-! ## Body/property fold lemmas -/

theorem bodyStep_nil_skip {s : PState} (h : s.inBody = false ∨ s.bodyLines = []) :
    bodyStep s [] = s := by
  rcases h with h | h <;> simp [bodyStep, trim_nil, h]

theorem foldl_bodyStep_body {L : List Chars} (hL : ∀ l ∈ L, BodyLineOK l) :
    ∀ (s : PState), s.inBody = true → s.bodyLines ≠ [] →
    L.foldl bodyStep s = { s with bodyLines := s.bodyLines ++ L } := by
  induction L with
  | nil => intro s _ _; simp
  | cons l rest ih =>
    intro s hin hne
    rw [List.foldl_cons]
    rcases hL l (by simp) with hnil | ⟨htr, hlne, hprop, hh⟩
    · subst hnil
      have hstep : bodyStep s [] = { s with bodyLines := s.bodyLines ++ [[]] } := by
        simp [bodyStep, trim_nil, hin, hne]
      rw [hstep, ih (fun x hx => hL x (by simp [hx])) _ (by simp [hin]) (by simp)]
      simp
    · have hstep : bodyStep s l = { s with bodyLines := s.bodyLines ++ [l] } := by
        simp [bodyStep, htr, hlne, hprop, hin]
      rw [hstep, ih (fun x hx => hL x (by simp [hx])) _ (by simp [hin]) (by simp)]
      simp

theorem foldl_bodyStep_props {P : List Property} (hP : ∀ p ∈ P, PropOK p) :
    ∀ (s : PState), P ≠ [] →
    (P.map propLine).foldl bodyStep s = { s with inBody := false, props := s.props ++ P } := by
  induction P with
  | nil => intro s h; exact absurd rfl h
  | cons p rest ih =>
    intro s _
    obtain ⟨htne, htpp⟩ := tryParseProperty_propLine (hP p (by simp))
    have hstep : bodyStep s (propLine p) =
        { s with inBody := false, props := s.props ++ [p] } := by
      simp only [bodyStep]
      rw [if_neg htne, htpp]
    rw [List.map_cons, List.foldl_cons, hstep]
    cases hr : rest with
    | nil => simp
    | cons q qs =>
      rw [← hr, ih (fun x hx => hP x (by simp [hx])) _ (by rw [hr]; simp)]
      simp

theorem splitNL_head_cons {c : Char} {r : Chars} (hc : ¬ c = '\n') :
    ∃ p ps, splitNL (c :: r) = (c :: p) :: ps := by
  simp only [splitNL, if_neg hc]
  cases hs : splitNL r with
  | nil => exact absurd hs (splitNL_ne_nil r)
  | cons q qs => exact ⟨q, qs, rfl⟩

/-! ## Prefix-failure lemmas for the marker strippers -/

theorem hash_space_prefix_false {T : Chars} (hT : ' ' ∉ T) (hT3 : T ≠ lit ("###")) (R : Chars) :
    (lit ("### ")).isPrefixOf (T ++ ' ' :: R) = false := by
  rcases T with _ | ⟨c1, _ | ⟨c2, _ | ⟨c3, _ | ⟨c4, T4⟩⟩⟩⟩
  · show (['#', '#', '#', ' ']).isPrefixOf (' ' :: R) = false
    simp [List.isPrefixOf]
  · show (['#', '#', '#', ' ']).isPrefixOf (c1 :: ' ' :: R) = false
    simp [List.isPrefixOf]
  · show (['#', '#', '#', ' ']).isPrefixOf (c1 :: c2 :: ' ' :: R) = false
    simp [List.isPrefixOf]
  · by_cases hc1 : c1 = '#'
    · by_cases hc2 : c2 = '#'
      · by_cases hc3 : c3 = '#'
        · exact absurd (by rw [hc1, hc2, hc3]; rfl) hT3
        · show (['#', '#', '#', ' ']).isPrefixOf (c1 :: c2 :: c3 :: ' ' :: R) = false
          simp [List.isPrefixOf, beq_iff_eq, Ne.symm hc3]
      · show (['#', '#', '#', ' ']).isPrefixOf (c1 :: c2 :: c3 :: ' ' :: R) = false
        simp [List.isPrefixOf, beq_iff_eq, Ne.symm hc2]
    · show (['#', '#', '#', ' ']).isPrefixOf (c1 :: c2 :: c3 :: ' ' :: R) = false
      simp [List.isPrefixOf, beq_iff_eq, Ne.symm hc1]
  · have hc4 : c4 ≠ ' ' := fun h => hT (by simp [h])
    show (['#', '#', '#', ' ']).isPrefixOf (c1 :: c2 :: c3 :: c4 :: (T4 ++ ' ' :: R)) = false
    simp [List.isPrefixOf, beq_iff_eq, Ne.symm hc4]

theorem pair_space_prefix_false {a : Char} (ha : a ≠ ' ') {name : Chars}
    (h1 : name ≠ [a]) (h2 : ([a, ' ']).isPrefixOf name = false) (R : Chars) :
    ([a, ' ']).isPrefixOf (name ++ ' ' :: R) = false := by
  rcases name with _ | ⟨c1, _ | ⟨c2, rest⟩⟩
  · simp [List.isPrefixOf, beq_iff_eq, ha]
  · have hc : c1 ≠ a := fun h => h1 (by rw [h])
    simp [List.isPrefixOf, beq_iff_eq, Ne.symm hc]
  · simp only [List.cons_append, List.isPrefixOf] at h2 ⊢
    simpa using h2

/-! ## Heading round trip -/

theorem parseTask_heading_eq {t : Task} (hOK : TaskOK t) (hG : TaskGuard t) :
    splitN3 (trim (stripPrefixAll (lit ("### ")) (headingLine t))) =
      [t.taskType.asStr, natChars t.id.val, '-' :: ' ' :: t.subject] := by
  obtain ⟨hid1, hid2, hTne, hTsp, hTnl, hThead, hTparse, hStrim, hSnl, hBOK, hPOK⟩ := hOK
  obtain ⟨hSne, hSpre, hT3⟩ := hG
  have hshape : headingLine t =
      lit ("### ") ++ (t.taskType.asStr ++ ' ' ::
        (natChars t.id.val ++ ' ' :: ('-' :: ' ' :: t.subject))) := by
    simp only [headingLine, List.append_assoc, List.singleton_append, List.cons_append]
    rfl
  have hstrip : stripPrefixAll (lit ("### ")) (headingLine t) =
      t.taskType.asStr ++ ' ' :: (natChars t.id.val ++ ' ' :: ('-' :: ' ' :: t.subject)) := by
    rw [hshape]
    exact stripPrefixAll_append (by decide) (hash_space_prefix_false hTsp hT3 _)
  have htrim : trim (t.taskType.asStr ++ ' ' ::
      (natChars t.id.val ++ ' ' :: ('-' :: ' ' :: t.subject))) =
      t.taskType.asStr ++ ' ' :: (natChars t.id.val ++ ' ' :: ('-' :: ' ' :: t.subject)) := by
    apply trim_eq_self_of
    · intro c hc
      rw [head?_append_left hTne] at hc
      exact hThead c hc
    · intro c hc
      rw [show t.taskType.asStr ++ ' ' ::
            (natChars t.id.val ++ ' ' :: ('-' :: ' ' :: t.subject)) =
          (t.taskType.asStr ++ ' ' :: (natChars t.id.val ++ [' ', '-', ' '])) ++ t.subject
        from by simp] at hc
      rw [getLast?_append_right hSne] at hc
      exact getLast?_not_ws_of_trimmed hStrim c hc
  have hDsp : ' ' ∉ natChars t.id.val :=
    fun hm => absurd rfl (isDigit_ne_space (natChars_all_digit _ _ hm))
  rw [hstrip, htrim]
  exact splitN3_parts hTsp hDsp _



/-- The state of `parse_task`'s loop after the non-heading lines of a
serialized block. -/
theorem foldl_bodyStep_taskRest {t : Task} (hB : BodyOK t.body) (hP : ∀ p ∈ t.props, PropOK p) :
    ((if t.body ≠ [] then [([] : Chars)] ++ splitNL t.body else []) ++
      (if t.props ≠ [] then (if t.body ≠ [] then [([] : Chars)] else []) ++ t.props.map propLine
       else []) ++ [([] : Chars)]).foldl bodyStep ⟨true, [], []⟩ =
    ⟨t.props.isEmpty, (if t.body = [] then [] else splitNL t.body ++ [[]]), t.props⟩ := by
  obtain ⟨hbt, hbl⟩ := hB
  by_cases hb : t.body = [] <;> by_cases hp : t.props = []
  · simp [hb, hp]
    rfl
  · have hie : t.props.isEmpty = false := by
      cases hq : t.props with
      | nil => exact absurd hq hp
      | cons q qs => rfl
    have e1 : (if t.body ≠ [] then [([] : Chars)] ++ splitNL t.body else []) = [] :=
      if_neg (by simp [hb])
    have e2 : (if t.props ≠ [] then
        (if t.body ≠ [] then [([] : Chars)] else []) ++ t.props.map propLine else []) =
        t.props.map propLine := by
      rw [if_pos hp, if_neg (by simp [hb]), List.nil_append]
    rw [e1, e2, List.nil_append, List.foldl_append, foldl_bodyStep_props hP _ hp,
      List.foldl_cons, bodyStep_nil_skip (Or.inl rfl), List.foldl_nil, if_pos hb, hie]
    simp
  · -- body nonempty, no properties
    obtain ⟨c, r, hc⟩ := List.exists_cons_of_ne_nil hb
    have hcn : ¬ c = '\n' := by
      have := head?_not_ws_of_trimmed hbt (c := c) (by rw [hc]; rfl)
      intro h
      rw [h] at this
      simp [isWS] at this
    obtain ⟨pp, ps, hsp⟩ := splitNL_head_cons hcn
    rw [← hc] at hsp
    have hmem : (c :: pp) ∈ splitNL t.body := by rw [hsp]; simp
    rcases hbl _ hmem with hnil | ⟨htr, hlne, hprop, _⟩
    · exact absurd hnil (by simp)
    have hstep : bodyStep ⟨true, [], []⟩ (c :: pp) = ⟨true, [c :: pp], []⟩ := by
      simp [bodyStep, htr, hlne, hprop]
    have e1 : (if t.body ≠ [] then [([] : Chars)] ++ splitNL t.body else []) =
        [] :: splitNL t.body := by rw [if_pos hb]; rfl
    have e2 : (if t.props ≠ [] then
        (if t.body ≠ [] then [([] : Chars)] else []) ++ t.props.map propLine else []) = [] :=
      if_neg (by simp [hp])
    rw [e1, e2, List.append_nil, List.cons_append, List.foldl_cons,
      bodyStep_nil_skip (Or.inr rfl), hsp, List.cons_append, List.foldl_cons, hstep,
      foldl_bodyStep_body (L := ps ++ [[]])
        (fun x hx => by
          rcases List.mem_append.mp hx with hx | hx
          · exact hbl x (by rw [hsp]; simp [hx])
          · left; simpa using hx)
        _ rfl (by simp),
      if_neg hb]
    simp [hp]
  · -- body and properties both nonempty
    obtain ⟨c, r, hc⟩ := List.exists_cons_of_ne_nil hb
    have hcn : ¬ c = '\n' := by
      have := head?_not_ws_of_trimmed hbt (c := c) (by rw [hc]; rfl)
      intro h
      rw [h] at this
      simp [isWS] at this
    obtain ⟨pp, ps, hsp⟩ := splitNL_head_cons hcn
    rw [← hc] at hsp
    have hmem : (c :: pp) ∈ splitNL t.body := by rw [hsp]; simp
    rcases hbl _ hmem with hnil | ⟨htr, hlne, hprop, _⟩
    · exact absurd hnil (by simp)
    have hstep : bodyStep ⟨true, [], []⟩ (c :: pp) = ⟨true, [c :: pp], []⟩ := by
      simp [bodyStep, htr, hlne, hprop]
    have hie : t.props.isEmpty = false := by
      cases hq : t.props with
      | nil => exact absurd hq hp
      | cons q qs => rfl
    have e1 : (if t.body ≠ [] then [([] : Chars)] ++ splitNL t.body else []) =
        [] :: splitNL t.body := by rw [if_pos hb]; rfl
    have e2 : (if t.props ≠ [] then
        (if t.body ≠ [] then [([] : Chars)] else []) ++ t.props.map propLine else []) =
        [] :: t.props.map propLine := by rw [if_pos hp, if_pos hb]; rfl
    have hregroup : ([] :: splitNL t.body) ++ ([] :: t.props.map propLine) ++ [([] : Chars)] =
        [] :: ((splitNL t.body ++ [[]]) ++ (t.props.map propLine ++ [([] : Chars)])) := by
      simp
    rw [e1, e2, hregroup, List.foldl_cons, bodyStep_nil_skip (Or.inr rfl), hsp,
      List.cons_append, List.cons_append, List.foldl_cons, hstep, List.foldl_append,
      foldl_bodyStep_body (L := ps ++ [[]])
        (fun x hx => by
          rcases List.mem_append.mp hx with hx | hx
          · exact hbl x (by rw [hsp]; simp [hx])
          · left; simpa using hx)
        _ rfl (by simp),
      List.foldl_append, foldl_bodyStep_props hP _ hp, List.foldl_cons,
      bodyStep_nil_skip (Or.inl rfl), List.foldl_nil, if_neg hb, hie]
    simp



/-- A serialized task block parses back to exactly the task it came
from, under the parser-output invariants and the amended claim's
guards. -/
theorem parseTask_taskBlockLines {t : Task} (hOK : TaskOK t) (hG : TaskGuard t) :
    parseTask (taskBlockLines t) = .ok (some t) := by
  have hsplit := parseTask_heading_eq hOK hG
  obtain ⟨hid1, hid2, hTne, hTsp, hTnl, hThead, hTparse, hStrim, hSnl, hBOK, hPOK⟩ := hOK
  have hfold := foldl_bodyStep_taskRest hBOK hPOK
  obtain ⟨hSne, hSpre, hT3⟩ := hG
  have hu : parseU32 (natChars t.id.val) = some t.id.val := parseU32_natChars hid2
  have hnew : TaskId.new t.id.val = .ok t.id := by
    unfold TaskId.new
    rw [if_neg (by omega)]
  have hsubj : trim (stripPrefixAll (lit ("- ")) ('-' :: ' ' :: t.subject)) = t.subject := by
    rw [show ('-' :: ' ' :: t.subject) = lit ("- ") ++ t.subject from rfl,
      stripPrefixAll_append (by decide) hSpre, hStrim]
  show parseTask (headingLine t ::
      ((if t.body ≠ [] then [([] : Chars)] ++ splitNL t.body else []) ++
        (if t.props ≠ [] then
          (if t.body ≠ [] then [([] : Chars)] else []) ++ t.props.map propLine else []) ++
        [([] : Chars)])) = .ok (some t)
  simp only [parseTask, hsplit]
  rw [hu]
  dsimp only
  rw [hnew]
  dsimp only
  rw [hsubj, hfold]
  have hbody : trim (joinNL (if t.body = [] then [] else splitNL t.body ++ [[]])) = t.body := by
    by_cases hb : t.body = []
    · rw [if_pos hb, hb]
      rfl
    · rw [if_neg hb, joinNL_concat_nil (splitNL_ne_nil _), joinNL_splitNL, trim_append_nl,
        hBOK.1]
  rw [hbody, hTparse]

/-- `trim_start_matches("* ")` leaves a line alone when it does not
start with the marker. -/
theorem trimStart_star (X : Chars) : trimStart (lit ("* ") ++ X) = lit ("* ") ++ X := by
  show trimStart ('*' :: (' ' :: X)) = '*' :: (' ' :: X)
  exact trimStart_cons (by decide)

/-- `parse_team_member` on a well-shaped member line, with the part
after the `>` left abstract. -/
theorem parseTeamMember_core {name email tail' : Chars}
    (hntr : trim name = name) (hlt : '<' ∉ name) (hgt : '>' ∉ name)
    (hge : '>' ∉ email) (hem : Email.new email = .ok email)
    (hn1 : name ≠ ['*']) (hn2 : name ≠ ['-'])
    (hp1 : (['*', ' ']).isPrefixOf name = false)
    (hp2 : (['-', ' ']).isPrefixOf name = false) :
    parseTeamMember (lit ("* ") ++ (name ++ ' ' :: ('<' :: (email ++ '>' :: tail')))) =
      .ok (some ⟨name, email,
        if tail' = [] then none
        else match trim tail' with
          | '-' :: rs => some (trim rs)
          | _ => none⟩) := by
  have hstrip1 : stripPrefixAll (lit ("* "))
      (lit ("* ") ++ (name ++ ' ' :: ('<' :: (email ++ '>' :: tail')))) =
      name ++ ' ' :: ('<' :: (email ++ '>' :: tail')) :=
    stripPrefixAll_append (by decide) (pair_space_prefix_false (by decide) hn1 hp1 _)
  have hstrip2 : stripPrefixAll (lit ("- "))
      (name ++ ' ' :: ('<' :: (email ++ '>' :: tail'))) =
      name ++ ' ' :: ('<' :: (email ++ '>' :: tail')) :=
    stripPrefixAll_not_prefix (pair_space_prefix_false (by decide) hn2 hp2 _)
  have hfind1 : (name ++ ' ' :: ('<' :: (email ++ '>' :: tail'))).findIdx?
      (fun c => c = '<') = some (name.length + 1) := by
    rw [show name ++ ' ' :: ('<' :: (email ++ '>' :: tail')) =
        (name ++ [' ']) ++ '<' :: (email ++ '>' :: tail') from by simp]
    rw [findIdx?_at (fun x hx => by
        rcases List.mem_append.mp hx with hx | hx
        · exact decide_eq_false (fun he => hlt (he ▸ hx))
        · simp at hx
          subst hx
          decide)
      (by decide) _]
    simp
  have hfind2 : (name ++ ' ' :: ('<' :: (email ++ '>' :: tail'))).findIdx?
      (fun c => c = '>') = some (name.length + email.length + 2) := by
    rw [show name ++ ' ' :: ('<' :: (email ++ '>' :: tail')) =
        (name ++ ' ' :: '<' :: email) ++ '>' :: tail' from by simp]
    rw [findIdx?_at (fun x hx => by
        rw [List.mem_append, List.mem_cons, List.mem_cons] at hx
        rcases hx with hx | hx | hx | hx
        · exact decide_eq_false (fun he => hgt (he ▸ hx))
        · subst hx; decide
        · subst hx; decide
        · exact decide_eq_false (fun he => hge (he ▸ hx)))
      (by decide) _]
    have : (name ++ ' ' :: '<' :: email).length = name.length + email.length + 2 := by
      simp only [List.length_append, List.length_cons]
      omega
    rw [this]
  have htake : (name ++ ' ' :: ('<' :: (email ++ '>' :: tail'))).take (name.length + 1) =
      name ++ [' '] := by
    rw [show name ++ ' ' :: ('<' :: (email ++ '>' :: tail')) =
        (name ++ [' ']) ++ '<' :: (email ++ '>' :: tail') from by simp]
    rw [show name.length + 1 = (name ++ [' ']).length from by simp]
    exact List.take_left _ _
  have hnm : trim (name ++ [' ']) = name := by
    cases hn : name with
    | nil => decide
    | cons c cs =>
      rw [← hn]
      have hne : trimStart name ≠ [] := by
        rw [trimStart_eq_self hntr, hn]
        simp
      show trimEnd (trimStart (name ++ [' '])) = name
      rw [trimStart_append hne, trimStart_eq_self hntr,
        trimEnd_concat_ws (by decide), trimEnd_eq_self hntr]
  have hdrop : (name ++ ' ' :: ('<' :: (email ++ '>' :: tail'))).drop (name.length + 1 + 1) =
      email ++ '>' :: tail' := by
    rw [show name ++ ' ' :: ('<' :: (email ++ '>' :: tail')) =
        (name ++ [' ', '<']) ++ (email ++ '>' :: tail') from by simp]
    rw [show name.length + 1 + 1 = (name ++ [' ', '<']).length from by simp]
    exact List.drop_left _ _
  have htake2 : (email ++ '>' :: tail').take (name.length + email.length + 2 - (name.length + 1 + 1)) =
      email := by
    rw [show name.length + email.length + 2 - (name.length + 1 + 1) = email.length from by omega]
    exact List.take_left _ _
  have hlen : (name ++ ' ' :: ('<' :: (email ++ '>' :: tail'))).length =
      name.length + email.length + 3 + tail'.length := by
    simp only [List.length_append, List.length_cons]
    omega
  simp only [parseTeamMember]
  rw [hstrip1, hstrip2, hfind1]
  dsimp only
  rw [hfind2]
  dsimp only
  rw [if_neg (by omega)]
  rw [htake, hnm, hdrop, htake2, hem]
  dsimp only
  rw [hlen]
  by_cases ht : tail' = []
  · subst ht
    rw [if_neg (by simp only [List.length_nil]; omega), if_pos rfl]
  · rw [if_pos (by
      have : tail'.length ≠ 0 := fun h => ht (List.length_eq_zero.mp h)
      omega)]
    have hdrop2 : (name ++ ' ' :: ('<' :: (email ++ '>' :: tail'))).drop
        (name.length + email.length + 2 + 1) = tail' := by
      rw [show name ++ ' ' :: ('<' :: (email ++ '>' :: tail')) =
          (name ++ ' ' :: '<' :: (email ++ ['>'])) ++ tail' from by simp]
      rw [show name.length + email.length + 2 + 1 =
          (name ++ ' ' :: '<' :: (email ++ ['>'])).length from by
        simp only [List.length_append, List.length_cons, List.length_nil]
        omega]
      exact List.drop_left _ _
    rw [hdrop2, if_neg ht]



/-- A serialized team-member line parses back to exactly the member it
came from, under the parser-output invariants and the amended claim's
guards. -/
theorem parseTeamMember_memberContent {m : TeamMember} (hOK : MemberOK m) (hG : MemberGuard m) :
    parseTeamMember (trim (memberContent m)) = .ok (some m) ∧
    ∃ X, trim (memberContent m) = lit ("* ") ++ X := by
  obtain ⟨hntr, hlt, hgt, hnnl, hem, hge, henl, hrole⟩ := hOK
  obtain ⟨hg1, hg2, hg3, hg4⟩ := hG
  rcases hr : m.role with _ | r
  · -- no role: the line is already trimmed
    have hmc : memberContent m =
        lit ("* ") ++ (m.name ++ ' ' :: ('<' :: (m.email ++ '>' :: ([] : Chars)))) := by
      simp only [memberContent, hr, List.append_assoc, List.cons_append, List.nil_append,
        List.append_nil]
      rfl
    have htr : trim (memberContent m) = memberContent m := by
      apply trim_eq_self_of
      · intro c hc
        rw [hmc] at hc
        cases hc
        decide
      · intro c hc
        rw [hmc, show lit ("* ") ++ (m.name ++ ' ' :: ('<' :: (m.email ++ '>' :: ([] : Chars)))) =
            (lit ("* ") ++ m.name ++ ' ' :: ('<' :: m.email)) ++ ['>'] from by simp,
          List.getLast?_concat] at hc
        cases hc
        decide
    refine ⟨?_, m.name ++ ' ' :: ('<' :: (m.email ++ '>' :: ([] : Chars))), by rw [htr, hmc]⟩
    rw [htr, hmc, parseTeamMember_core hntr hlt hgt hge hem hg1 hg2 hg3 hg4,
      if_pos rfl, ← hr]
  · rcases hrn : r with _ | ⟨c0, rs0⟩
    · -- empty role: serializer emits a trailing " - ", trim drops the last space
      have hmc : memberContent m =
          (lit ("* ") ++ (m.name ++ ' ' :: ('<' :: (m.email ++ '>' :: ([' ', '-'] : Chars))))) ++
            [' '] := by
        simp only [memberContent, hr, hrn, List.append_assoc, List.cons_append,
          List.nil_append, List.append_nil]
        rfl
      have htr : trim (memberContent m) =
          lit ("* ") ++ (m.name ++ ' ' :: ('<' :: (m.email ++ '>' :: ([' ', '-'] : Chars)))) := by
        show trimEnd (trimStart (memberContent m)) = _
        rw [hmc, show (lit ("* ") ++ (m.name ++ ' ' :: ('<' :: (m.email ++ '>' ::
            ([' ', '-'] : Chars))))) ++ [' '] =
            lit ("* ") ++ ((m.name ++ ' ' :: ('<' :: (m.email ++ '>' ::
            ([' ', '-'] : Chars)))) ++ [' ']) from by simp,
          trimStart_star, ← List.append_assoc, trimEnd_concat_ws (by decide),
          show lit ("* ") ++ (m.name ++ ' ' :: ('<' :: (m.email ++ '>' ::
            ([' ', '-'] : Chars)))) =
            (lit ("* ") ++ (m.name ++ ' ' :: ('<' :: (m.email ++ '>' :: ([' '] : Chars))))) ++
            ['-'] from by simp,
          trimEnd_concat (by decide)]
      refine ⟨?_, m.name ++ ' ' :: ('<' :: (m.email ++ '>' :: ([' ', '-'] : Chars))), htr⟩
      rw [htr, parseTeamMember_core hntr hlt hgt hge hem hg1 hg2 hg3 hg4,
        if_neg (by simp)]
      show Except.ok (some (⟨m.name, m.email, some ([] : Chars)⟩ : TeamMember)) =
        Except.ok (some m)
      rw [← hrn, ← hr]
    · -- nonempty role
      have hrne : r ≠ [] := by rw [hrn]; simp
      obtain ⟨hrtr, hrnl⟩ := hrole r hr
      have hmc : memberContent m =
          lit ("* ") ++ (m.name ++ ' ' :: ('<' :: (m.email ++ '>' :: (' ' :: '-' :: ' ' :: r)))) := by
        simp only [memberContent, hr, List.append_assoc, List.cons_append, List.nil_append]
        rfl
      have htr : trim (memberContent m) = memberContent m := by
        apply trim_eq_self_of
        · intro c hc
          rw [hmc] at hc
          cases hc
          decide
        · intro c hc
          rw [hmc, show lit ("* ") ++ (m.name ++ ' ' :: ('<' :: (m.email ++ '>' ::
              (' ' :: '-' :: ' ' :: r)))) =
              (lit ("* ") ++ m.name ++ ' ' :: ('<' :: (m.email ++ ['>', ' ', '-', ' ']))) ++ r
            from by simp, getLast?_append_right hrne] at hc
          exact getLast?_not_ws_of_trimmed hrtr c hc
      have htail : trim (' ' :: '-' :: ' ' :: r) = '-' :: ' ' :: r := by
        show trimEnd (trimStart (' ' :: '-' :: ' ' :: r)) = _
        rw [show trimStart (' ' :: '-' :: ' ' :: r) = trimStart ('-' :: ' ' :: r) from rfl,
          trimStart_cons (by decide),
          show ('-' :: ' ' :: r : Chars) = ['-', ' '] ++ r from rfl,
          trimEnd_append_right (by rw [trimEnd_eq_self hrtr]; exact hrne),
          trimEnd_eq_self hrtr]
      have hrolecomp : trim (' ' :: r) = r := by
        show trimEnd (trimStart (' ' :: r)) = r
        rw [show trimStart (' ' :: r) = trimStart r from rfl, trimStart_eq_self hrtr,
          trimEnd_eq_self hrtr]
      refine ⟨?_, m.name ++ ' ' :: ('<' :: (m.email ++ '>' :: (' ' :: '-' :: ' ' :: r))),
        by rw [htr, hmc]⟩
      rw [htr, hmc, parseTeamMember_core hntr hlt hgt hge hem hg1 hg2 hg3 hg4,
        if_neg (by simp), htail]
      show Except.ok (some (⟨m.name, m.email, some (trim (' ' :: r))⟩ : TeamMember)) =
        Except.ok (some m)
      rw [hrolecomp, ← hr]

/-! ## Line classification for the section loops -/

theorem propLine_not_heading {p : Property} (hOK : PropOK p) :
    isTaskHeading (propLine p) = false := by
  have hne := (tryParseProperty_propLine hOK).1
  obtain ⟨hvk, hcol, hktrim, hknl, hvtrim, hvnl⟩ := hOK
  obtain ⟨c, r, hk, hup⟩ := validKey_head hvk
  have hkne : p.key ≠ [] := by rw [hk]; simp
  have h1 : trimStart (propLine p) = propLine p := by
    rw [show propLine p = p.key ++ (lit (": ") ++ p.value) from by simp [propLine],
      trimStart_append (by rw [trimStart_eq_self hktrim]; exact hkne),
      trimStart_eq_self hktrim]
  have hh : (trim (propLine p)).head? = some c := by
    show (trimEnd (trimStart (propLine p))).head? = some c
    rw [h1]
    have hprefne : trimEnd (propLine p) ≠ [] := by
      intro h
      apply hne
      show trimEnd (trimStart (propLine p)) = []
      rw [h1, h]
    rw [← head?_of_prefix (trimEnd_pref (propLine p)) hprefne,
      show propLine p = p.key ++ (lit (": ") ++ p.value) from by simp [propLine],
      head?_append_left hkne, hk]
    rfl
  have hcne : c ≠ '#' := by
    intro h
    rw [h] at hup
    exact absurd hup (by decide)
  unfold isTaskHeading
  cases ht : trim (propLine p) with
  | nil => exact absurd ht hne
  | cons d rest =>
    rw [ht] at hh
    simp only [List.head?_cons, Option.some.injEq] at hh
    subst hh
    show (['#', '#', '#', ' ']).isPrefixOf (d :: rest) = false
    simp [List.isPrefixOf, beq_iff_eq, Ne.symm hcne]

theorem trim_headingLine {t : Task} (hOK : TaskOK t) (hG : TaskGuard t) :
    trim (headingLine t) = headingLine t := by
  obtain ⟨hid1, hid2, hTne, hTsp, hTnl, hThead, hTparse, hStrim, hSnl, hBOK, hPOK⟩ := hOK
  obtain ⟨hSne, hSpre, hT3⟩ := hG
  apply trim_eq_self_of
  · intro c hc
    cases hc
    decide
  · intro c hc
    rw [show headingLine t = (lit ("### ") ++ t.taskType.asStr ++ [' '] ++
        natChars t.id.val ++ [' ', '-', ' ']) ++ t.subject from by
      simp [headingLine, List.append_assoc]
      rfl, getLast?_append_right hSne] at hc
    exact getLast?_not_ws_of_trimmed hStrim c hc

theorem isTaskHeading_headingLine {t : Task} (hOK : TaskOK t) (hG : TaskGuard t) :
    isTaskHeading (headingLine t) = true := by
  unfold isTaskHeading
  rw [trim_headingLine hOK hG]
  show (lit ("### ")).isPrefixOf (lit ("### ") ++ (t.taskType.asStr ++ [' '] ++
    natChars t.id.val ++ lit (" - ") ++ t.subject)) = true
  rw [List.isPrefixOf_iff_prefix]
  exact List.prefix_append _ _

theorem taskBlockLines_tail_not_heading {t : Task} (hOK : TaskOK t) :
    ∀ l ∈ (if t.body ≠ [] then [([] : Chars)] ++ splitNL t.body else []) ++
      (if t.props ≠ [] then
        (if t.body ≠ [] then [([] : Chars)] else []) ++ t.props.map propLine else []) ++
      [([] : Chars)], isTaskHeading l = false := by
  obtain ⟨hid1, hid2, hTne, hTsp, hTnl, hThead, hTparse, hStrim, hSnl, hBOK, hPOK⟩ := hOK
  intro l hl
  rw [List.mem_append, List.mem_append] at hl
  rcases hl with (hl | hl) | hl
  · by_cases hb : t.body = []
    · rw [if_neg (by simp [hb])] at hl
      simp at hl
    · rw [if_pos hb, List.singleton_append, List.mem_cons] at hl
      rcases hl with rfl | hl
      · rfl
      · rcases hBOK.2 l hl with rfl | ⟨_, _, _, hh⟩
        · rfl
        · exact hh
  · by_cases hp : t.props = []
    · rw [if_neg (by simp [hp])] at hl
      simp at hl
    · rw [if_pos hp, List.mem_append] at hl
      rcases hl with hl | hl
      · by_cases hb : t.body = []
        · rw [if_neg (by simp [hb])] at hl
          simp at hl
        · rw [if_pos hb] at hl
          simp only [List.mem_singleton] at hl
          subst hl
          rfl
      · rw [List.mem_map] at hl
        obtain ⟨p, hp', rfl⟩ := hl
        exact propLine_not_heading (hPOK p hp')
  · simp only [List.mem_singleton] at hl
    subst hl
    rfl



/-! ## Team-loop and tasks-loop traversal -/

theorem teamLoop_blank (rest : List Chars) : teamLoop ([] :: rest) = teamLoop rest := rfl

theorem teamLoop_memberLines {team : List TeamMember} (hOK : ∀ m ∈ team, MemberOK m)
    (hG : ∀ m ∈ team, MemberGuard m) (rest : List Chars) :
    teamLoop (team.map memberContent ++ rest) =
      (teamLoop rest).map (fun p => (team ++ p.1, p.2)) := by
  induction team with
  | nil =>
    show teamLoop rest = _
    cases h : teamLoop rest with
    | error e => rfl
    | ok p => rfl
  | cons m ms ih =>
    obtain ⟨hparse, X, hX⟩ := parseTeamMember_memberContent (hOK m (by simp)) (hG m (by simp))
    have hns : startsWith (lit ("## ")) (trim (memberContent m)) = false := by
      rw [hX]
      show (['#', '#', ' ']).isPrefixOf ('*' :: ' ' :: X) = false
      simp [List.isPrefixOf]
    have hys : startsWith (lit ("* ")) (trim (memberContent m)) = true := by
      rw [hX]
      show (['*', ' ']).isPrefixOf ('*' :: ' ' :: X) = true
      simp [List.isPrefixOf]
    rw [List.map_cons, List.cons_append]
    show teamLoop (memberContent m :: (ms.map memberContent ++ rest)) = _
    rw [teamLoop, if_neg (by rw [hns]; simp), if_pos (by rw [hys]; simp), hparse]
    rw [ih (fun x hx => hOK x (by simp [hx])) (fun x hx => hG x (by simp [hx]))]
    cases h : teamLoop rest with
    | error e => rfl
    | ok p => rfl

theorem teamLoop_stop {l : Chars} (h : startsWith (lit ("## ")) (trim l) = true)
    (rest : List Chars) : teamLoop (l :: rest) = .ok ([], l :: rest) := by
  rw [teamLoop, if_pos h]

theorem tasksGo_skip_none {ls : List Chars} (h : ∀ l ∈ ls, isTaskHeading l = false)
    (rest : List Chars) : tasksGo (ls ++ rest) none = tasksGo rest none := by
  induction ls with
  | nil => rfl
  | cons l ls ih =>
    rw [List.cons_append]
    show tasksGo (l :: (ls ++ rest)) none = _
    rw [tasksGo, if_neg (by rw [h l (by simp)]; simp)]
    exact ih (fun x hx => h x (by simp [hx]))

theorem tasksGo_accum {ls : List Chars} (h : ∀ l ∈ ls, isTaskHeading l = false) :
    ∀ (blk : List Chars) (rest : List Chars),
    tasksGo (ls ++ rest) (some blk) = tasksGo rest (some (blk ++ ls)) := by
  induction ls with
  | nil => intro blk rest; simp
  | cons l ls ih =>
    intro blk rest
    rw [List.cons_append]
    show tasksGo (l :: (ls ++ rest)) (some blk) = _
    rw [tasksGo, if_neg (by rw [h l (by simp)]; simp)]
    rw [ih (fun x hx => h x (by simp [hx])) (blk ++ [l]) rest]
    simp

theorem tasksGo_blocks {tasks : List Task} (hOK : ∀ t ∈ tasks, TaskOK t)
    (hG : ∀ t ∈ tasks, TaskGuard t) :
    ∀ (blk : List Chars) (t0 : Task), parseTask blk = .ok (some t0) →
    tasksGo ((tasks.map taskBlockLines).flatten) (some blk) = .ok (t0 :: tasks) := by
  induction tasks with
  | nil =>
    intro blk t0 hp
    show (parseTask blk).map _ = _
    rw [hp]
    rfl
  | cons t ts ih =>
    intro blk t0 hp
    have hOKt := hOK t (by simp)
    have hGt := hG t (by simp)
    rw [List.map_cons, List.flatten_cons]
    show tasksGo ((headingLine t ::
      ((if t.body ≠ [] then [([] : Chars)] ++ splitNL t.body else []) ++
        (if t.props ≠ [] then
          (if t.body ≠ [] then [([] : Chars)] else []) ++ t.props.map propLine else []) ++
        [([] : Chars)])) ++ (ts.map taskBlockLines).flatten) (some blk) = _
    rw [List.cons_append]
    rw [tasksGo, if_pos (isTaskHeading_headingLine hOKt hGt), hp]
    rw [tasksGo_accum (taskBlockLines_tail_not_heading hOKt) [headingLine t] _]
    rw [show [headingLine t] ++
        ((if t.body ≠ [] then [([] : Chars)] ++ splitNL t.body else []) ++
          (if t.props ≠ [] then
            (if t.body ≠ [] then [([] : Chars)] else []) ++ t.props.map propLine else []) ++
          [([] : Chars)]) = taskBlockLines t from rfl]
    rw [ih (fun x hx => hOK x (by simp [hx])) (fun x hx => hG x (by simp [hx]))
      (taskBlockLines t) t (parseTask_taskBlockLines hOKt hGt)]
    rfl

/-! ## The serializer, line by line -/

theorem memberLine_eq (m : TeamMember) : memberLine m = memberContent m ++ ['\n'] := by
  simp only [memberLine, memberContent, List.append_assoc]

theorem joinLF_singleton (l : Chars) : joinLF [l] = l ++ ['\n'] := by
  simp [joinLF]

theorem joinLF_nil : joinLF [] = [] := rfl

theorem joinLF_cons (l : Chars) (rest : List Chars) :
    joinLF (l :: rest) = l ++ '\n' :: joinLF rest := by
  simp [joinLF]

theorem joinLF_taskBlockLines {t : Task} (hb : trim t.body = t.body) :
    joinLF (taskBlockLines t) = taskBlock t := by
  have h3 : joinLF (t.props.map propLine) =
      (t.props.map (fun p => p.key ++ lit (": ") ++ p.value ++ ['\n'])).flatten := by
    simp only [joinLF, List.map_map]
    congr 1
  by_cases hbody : t.body = [] <;> by_cases hp : t.props = [] <;>
    simp [taskBlockLines, taskBlock, joinLF_append, joinLF_singleton, joinLF_cons,
      joinLF_nil, h3, joinLF_splitNL, hb, hbody, hp, headingLine, List.append_assoc]

theorem joinLF_blocks {ts : List Task} (hb : ∀ t ∈ ts, trim t.body = t.body) :
    joinLF ((ts.map taskBlockLines).flatten) = (ts.map taskBlock).flatten := by
  induction ts with
  | nil => rfl
  | cons t rest ih =>
    rw [List.map_cons, List.flatten_cons, joinLF_append,
      joinLF_taskBlockLines (hb t (by simp)), List.map_cons, List.flatten_cons,
      ih (fun x hx => hb x (by simp [hx]))]

theorem joinLF_memberLines (team : List TeamMember) :
    joinLF (team.map memberContent) = (team.map memberLine).flatten := by
  induction team with
  | nil => rfl
  | cons m rest ih =>
    rw [List.map_cons, List.map_cons, List.flatten_cons, ← ih, memberLine_eq]
    simp [joinLF]

theorem serialize_eq_joinLF {d : FrumpDoc} (hH : HeaderOK d.header)
    (hb : ∀ t ∈ d.tasks, trim t.body = t.body) :
    serialize d = joinLF (serLines d) := by
  have htk : lit ("## Tasks\n\n") = lit ("## Tasks") ++ ['\n', '\n'] := by decide
  have htm : lit ("## Team\n\n") = lit ("## Team") ++ ['\n', '\n'] := by decide
  by_cases ht : d.team = [] <;>
    simp [serialize, serLines, ht, joinLF_append, joinLF_cons, joinLF_nil,
      header_reconstruct hH.1, joinLF_blocks hb, joinLF_memberLines, htk, htm,
      List.append_assoc]



/-! ## Shapes of the serialized lines -/

theorem nl_not_mem_natChars (n : Nat) : '\n' ∉ natChars n := by
  intro hm
  exact absurd rfl (isDigit_ne_nl (natChars_all_digit n _ hm))

theorem nl_not_mem_memberContent {m : TeamMember} (hOK : MemberOK m) :
    '\n' ∉ memberContent m := by
  obtain ⟨hntr, hlt, hgt, hnnl, hem, hge, henl, hrole⟩ := hOK
  intro hm
  unfold memberContent at hm
  simp only [List.mem_append] at hm
  rcases hm with (((((hm | hm) | hm) | hm) | hm) | hm)
  · simp [lit] at hm
  · exact hnnl hm
  · simp [lit] at hm
  · exact henl hm
  · simp at hm
  · rcases hr : m.role with _ | r
    · rw [hr] at hm
      simp at hm
    · rw [hr] at hm
      rw [List.mem_append] at hm
      rcases hm with hm | hm
      · simp [lit] at hm
      · exact (hrole r hr).2 hm

theorem nl_not_mem_headingLine {t : Task} (hOK : TaskOK t) : '\n' ∉ headingLine t := by
  obtain ⟨hid1, hid2, hTne, hTsp, hTnl, hThead, hTparse, hStrim, hSnl, hBOK, hPOK⟩ := hOK
  intro hm
  unfold headingLine at hm
  simp only [List.mem_append] at hm
  rcases hm with (((((hm | hm) | hm) | hm) | hm) | hm)
  · simp [lit] at hm
  · exact hTnl hm
  · simp at hm
  · exact nl_not_mem_natChars _ hm
  · simp [lit] at hm
  · exact hSnl hm

theorem nl_not_mem_propLine {p : Property} (hOK : PropOK p) : '\n' ∉ propLine p := by
  obtain ⟨hvk, hcol, hktrim, hknl, hvtrim, hvnl⟩ := hOK
  intro hm
  unfold propLine at hm
  rw [List.mem_append, List.mem_append] at hm
  rcases hm with (hm | hm) | hm
  · exact hknl hm
  · simp [lit] at hm
  · exact hvnl hm

theorem serLines_no_nl {d : FrumpDoc} (hOK : DocOK d) : ∀ l ∈ serLines d, '\n' ∉ l := by
  obtain ⟨hH, hM, hT⟩ := hOK
  intro l hl
  unfold serLines at hl
  rw [List.mem_append, List.mem_append, List.mem_append] at hl
  rcases hl with ((hl | hl) | hl) | hl
  · exact splitNL_mem_no_nl d.header l (List.dropLast_subset _ hl)
  · by_cases ht : d.team = []
    · rw [if_neg (by simp [ht])] at hl
      simp at hl
    · rw [if_pos ht, List.mem_append, List.mem_append] at hl
      rcases hl with (hl | hl) | hl
      · simp only [List.mem_cons, List.not_mem_nil, or_false] at hl
        rcases hl with rfl | rfl
        · decide
        · simp
      · rw [List.mem_map] at hl
        obtain ⟨m, hm, rfl⟩ := hl
        exact nl_not_mem_memberContent (hM m hm)
      · simp only [List.mem_singleton] at hl; subst hl; simp
  · simp only [List.mem_cons, List.not_mem_nil, or_false] at hl
    rcases hl with rfl | rfl
    · decide
    · simp
  · rw [List.mem_flatten] at hl
    obtain ⟨blk, hblk, hlblk⟩ := hl
    rw [List.mem_map] at hblk
    obtain ⟨t, ht, rfl⟩ := hblk
    have hOKt := hT t ht
    unfold taskBlockLines at hlblk
    rw [List.mem_append, List.mem_append, List.mem_append] at hlblk
    rcases hlblk with ((hl | hl) | hl) | hl
    · simp only [List.mem_singleton] at hl; subst hl
      exact nl_not_mem_headingLine hOKt
    · by_cases hb : t.body = []
      · rw [if_neg (by simp [hb])] at hl
        simp at hl
      · rw [if_pos hb, List.singleton_append, List.mem_cons] at hl
        rcases hl with rfl | hl
        · simp
        · exact splitNL_mem_no_nl t.body l hl
    · by_cases hp : t.props = []
      · rw [if_neg (by simp [hp])] at hl
        simp at hl
      · rw [if_pos hp, List.mem_append] at hl
        rcases hl with hl | hl
        · by_cases hb : t.body = []
          · rw [if_neg (by simp [hb])] at hl
            simp at hl
          · rw [if_pos hb] at hl
            simp only [List.mem_singleton] at hl; subst hl; simp
        · rw [List.mem_map] at hl
          obtain ⟨p, hp', rfl⟩ := hl
          exact nl_not_mem_propLine (hOKt.2.2.2.2.2.2.2.2.2.2 p hp')
    · simp only [List.mem_singleton] at hl; subst hl; simp



theorem stripCR_eq_of {l : Chars} (h : l.getLast? ≠ some '\r') : stripCR l = l :=
  if_neg h

theorem getLast?_memberContent {m : TeamMember} (hOK : MemberOK m) :
    ∀ c, (memberContent m).getLast? = some c → c ≠ '\r' := by
  obtain ⟨hntr, hlt, hgt, hnnl, hem, hge, henl, hrole⟩ := hOK
  intro c hc
  rcases hr : m.role with _ | r
  · rw [show memberContent m = (lit ("* ") ++ m.name ++ lit (" <") ++ m.email) ++ ['>'] from by
      simp [memberContent, hr], List.getLast?_concat] at hc
    cases hc
    decide
  · rcases hrn : r with _ | ⟨c0, rs0⟩
    · rw [show memberContent m =
          (lit ("* ") ++ m.name ++ lit (" <") ++ m.email ++ ['>'] ++ [' ', '-']) ++ [' '] from by
        simp [memberContent, hr, hrn]
        rfl, List.getLast?_concat] at hc
      cases hc
      decide
    · have hrne : r ≠ [] := by rw [hrn]; simp
      rw [show memberContent m =
          (lit ("* ") ++ m.name ++ lit (" <") ++ m.email ++ ['>'] ++ lit (" - ")) ++ r from by
        simp [memberContent, hr, List.append_assoc], getLast?_append_right hrne] at hc
      have := getLast?_not_ws_of_trimmed (hrole r hr).1 c hc
      intro he
      rw [he] at this
      simp [isWS] at this

theorem getLast?_headingLine {t : Task} (hOK : TaskOK t) (hG : TaskGuard t) :
    ∀ c, (headingLine t).getLast? = some c → c ≠ '\r' := by
  intro c hc
  rw [show headingLine t = (lit ("### ") ++ t.taskType.asStr ++ [' '] ++
      natChars t.id.val ++ [' ', '-', ' ']) ++ t.subject from by
    simp [headingLine, List.append_assoc]
    rfl, getLast?_append_right hG.1] at hc
  have := getLast?_not_ws_of_trimmed hOK.2.2.2.2.2.2.2.1 c hc
  intro he
  rw [he] at this
  simp [isWS] at this

theorem getLast?_propLine {p : Property} (hOK : PropOK p) :
    ∀ c, (propLine p).getLast? = some c → c ≠ '\r' := by
  obtain ⟨hvk, hcol, hktrim, hknl, hvtrim, hvnl⟩ := hOK
  intro c hc
  by_cases hv : p.value = []
  · rw [show propLine p = (p.key ++ [':']) ++ [' '] from by
      simp [propLine, lit, hv], List.getLast?_concat] at hc
    cases hc
    decide
  · rw [show propLine p = (p.key ++ lit (": ")) ++ p.value from by
      simp [propLine, List.append_assoc], getLast?_append_right hv] at hc
    have := getLast?_not_ws_of_trimmed hvtrim c hc
    intro he
    rw [he] at this
    simp [isWS] at this

theorem serLines_stripCR {d : FrumpDoc} (hOK : DocOK d) (hHG : HeaderGuard d)
    (hTG : ∀ t ∈ d.tasks, TaskGuard t) :
    ∀ l ∈ serLines d, stripCR l = l := by
  obtain ⟨hH, hM, hT⟩ := hOK
  intro l hl
  unfold serLines at hl
  rw [List.mem_append, List.mem_append, List.mem_append] at hl
  rcases hl with ((hl | hl) | hl) | hl
  · exact hHG l hl
  · by_cases ht : d.team = []
    · rw [if_neg (by simp [ht])] at hl
      simp at hl
    · rw [if_pos ht, List.mem_append, List.mem_append] at hl
      rcases hl with (hl | hl) | hl
      · simp only [List.mem_cons, List.not_mem_nil, or_false] at hl
        rcases hl with rfl | rfl
        · decide
        · rfl
      · rw [List.mem_map] at hl
        obtain ⟨m, hm, rfl⟩ := hl
        refine stripCR_eq_of (fun hc => ?_)
        exact absurd rfl (getLast?_memberContent (hM m hm) '\r' hc)
      · simp only [List.mem_singleton] at hl; subst hl; rfl
  · simp only [List.mem_cons, List.not_mem_nil, or_false] at hl
    rcases hl with rfl | rfl
    · decide
    · rfl
  · rw [List.mem_flatten] at hl
    obtain ⟨blk, hblk, hlblk⟩ := hl
    rw [List.mem_map] at hblk
    obtain ⟨t, ht, rfl⟩ := hblk
    have hOKt := hT t ht
    unfold taskBlockLines at hlblk
    rw [List.mem_append, List.mem_append, List.mem_append] at hlblk
    rcases hlblk with ((hl | hl) | hl) | hl
    · simp only [List.mem_singleton] at hl; subst hl
      refine stripCR_eq_of (fun hc => ?_)
      exact absurd rfl (getLast?_headingLine hOKt (hTG t ht) '\r' hc)
    · by_cases hb : t.body = []
      · rw [if_neg (by simp [hb])] at hl
        simp at hl
      · rw [if_pos hb, List.singleton_append, List.mem_cons] at hl
        rcases hl with rfl | hl
        · rfl
        · rcases hOKt.2.2.2.2.2.2.2.2.2.1.2 l hl with rfl | ⟨htr, _, _, _⟩
          · rfl
          · refine stripCR_eq_of (fun hc => ?_)
            have := getLast?_not_ws_of_trimmed htr '\r' hc
            simp [isWS] at this
    · by_cases hp : t.props = []
      · rw [if_neg (by simp [hp])] at hl
        simp at hl
      · rw [if_pos hp, List.mem_append] at hl
        rcases hl with hl | hl
        · by_cases hb : t.body = []
          · rw [if_neg (by simp [hb])] at hl
            simp at hl
          · rw [if_pos hb] at hl
            simp only [List.mem_singleton] at hl; subst hl; rfl
        · rw [List.mem_map] at hl
          obtain ⟨p, hp', rfl⟩ := hl
          refine stripCR_eq_of (fun hc => ?_)
          exact absurd rfl (getLast?_propLine (hOKt.2.2.2.2.2.2.2.2.2.2 p hp') '\r' hc)
    · simp only [List.mem_singleton] at hl; subst hl; rfl

theorem map_eq_self_of {α} {f : α → α} {l : List α} (h : ∀ x ∈ l, f x = x) :
    l.map f = l := by
  induction l with
  | nil => rfl
  | cons x xs ih =>
    rw [List.map_cons, h x (by simp), ih (fun y hy => h y (by simp [hy]))]

theorem rustLines_serialize {d : FrumpDoc} (hOK : DocOK d) (hHG : HeaderGuard d)
    (hTG : ∀ t ∈ d.tasks, TaskGuard t) :
    rustLines (serialize d) = serLines d := by
  have hbt : ∀ t ∈ d.tasks, trim t.body = t.body :=
    fun t ht => ((hOK.2.2 t ht).2.2.2.2.2.2.2.2.2.1).1
  rw [serialize_eq_joinLF hOK.1 hbt, ← List.append_nil (joinLF (serLines d)),
    rustLines_joinLF_append (serLines_no_nl hOK) []]
  rw [show rustLines [] = [] from rfl, List.append_nil]
  exact map_eq_self_of (serLines_stripCR hOK hHG hTG)

/-- Reparsing a serialized well-formed document recovers it exactly
(under the amended claim's guards). -/
theorem parse_serialize {d : FrumpDoc} (hOK : DocOK d) (hHG : HeaderGuard d)
    (hTG : ∀ t ∈ d.tasks, TaskGuard t) (hMG : ∀ m ∈ d.team, MemberGuard m) :
    parse (serialize d) = .ok ⟨d.header, d.team, d.tasks⟩ := by
  have hHmk : ∀ l ∈ (splitNL d.header).dropLast, (!isMarker l) = true := by
    intro l hl
    rw [hOK.1.2 l hl]
    rfl
  have hblocks :
      tasksGo ((d.tasks.map taskBlockLines).flatten) none = .ok d.tasks := by
    cases hts : d.tasks with
    | nil => rfl
    | cons t ts =>
      have hOKt := hOK.2.2 t (by rw [hts]; simp)
      have hGt := hTG t (by rw [hts]; simp)
      rw [List.map_cons, List.flatten_cons]
      show tasksGo ((headingLine t ::
        ((if t.body ≠ [] then [([] : Chars)] ++ splitNL t.body else []) ++
          (if t.props ≠ [] then
            (if t.body ≠ [] then [([] : Chars)] else []) ++ t.props.map propLine else []) ++
          [([] : Chars)])) ++ (ts.map taskBlockLines).flatten) none = _
      rw [List.cons_append, tasksGo, if_pos (isTaskHeading_headingLine hOKt hGt)]
      rw [tasksGo_accum (taskBlockLines_tail_not_heading hOKt) [headingLine t] _]
      rw [show [headingLine t] ++
          ((if t.body ≠ [] then [([] : Chars)] ++ splitNL t.body else []) ++
            (if t.props ≠ [] then
              (if t.body ≠ [] then [([] : Chars)] else []) ++ t.props.map propLine else []) ++
            [([] : Chars)]) = taskBlockLines t from rfl]
      rw [tasksGo_blocks (fun x hx => hOK.2.2 x (by rw [hts]; simp [hx]))
        (fun x hx => hTG x (by rw [hts]; simp [hx]))
        (taskBlockLines t) t (parseTask_taskBlockLines hOKt hGt)]
  have htasksPhase :
      tasksPhase (lit ("## Tasks") :: ([] : Chars) :: (d.tasks.map taskBlockLines).flatten) =
        .ok d.tasks := by
    rw [tasksPhase, if_pos (by decide)]
    rw [show tasksGo (([] : Chars) :: (d.tasks.map taskBlockLines).flatten) none =
        tasksGo ((d.tasks.map taskBlockLines).flatten) none from by
      rw [tasksGo]
      rfl]
    exact hblocks
  simp only [parse]
  rw [rustLines_serialize hOK hHG hTG]
  by_cases ht : d.team = []
  · have hS : serLines d = (splitNL d.header).dropLast ++
        (lit ("## Tasks") :: ([] : Chars) :: (d.tasks.map taskBlockLines).flatten) := by
      simp [serLines, ht]
    rw [hS, takeWhile_append_all hHmk, dropWhile_append_all hHmk]
    rw [show List.takeWhile (fun l => !isMarker l)
        (lit ("## Tasks") :: ([] : Chars) :: (d.tasks.map taskBlockLines).flatten) = [] from by
      rw [List.takeWhile_cons]
      simp only [show (!isMarker (lit ("## Tasks"))) = false from by decide]
      rfl]
    rw [show List.dropWhile (fun l => !isMarker l)
        (lit ("## Tasks") :: ([] : Chars) :: (d.tasks.map taskBlockLines).flatten) =
        lit ("## Tasks") :: ([] : Chars) :: (d.tasks.map taskBlockLines).flatten from by
      rw [List.dropWhile_cons]
      simp only [show (!isMarker (lit ("## Tasks"))) = false from by decide]
      rfl]
    rw [List.append_nil, header_reconstruct hOK.1.1]
    rw [show teamPhase
        (lit ("## Tasks") :: ([] : Chars) :: (d.tasks.map taskBlockLines).flatten) =
        .ok ([], lit ("## Tasks") :: ([] : Chars) :: (d.tasks.map taskBlockLines).flatten)
      from by
      rw [teamPhase, if_neg (by decide)]]
    dsimp only
    rw [htasksPhase, ht]
  · have hS : serLines d = (splitNL d.header).dropLast ++
        (lit ("## Team") :: ([] : Chars) :: (d.team.map memberContent ++
          (([] : Chars) :: lit ("## Tasks") :: ([] : Chars) ::
            (d.tasks.map taskBlockLines).flatten))) := by
      simp [serLines, ht]
    rw [hS, takeWhile_append_all hHmk, dropWhile_append_all hHmk]
    rw [show List.takeWhile (fun l => !isMarker l)
        (lit ("## Team") :: ([] : Chars) :: (d.team.map memberContent ++
          (([] : Chars) :: lit ("## Tasks") :: ([] : Chars) ::
            (d.tasks.map taskBlockLines).flatten))) = [] from by
      rw [List.takeWhile_cons]
      simp only [show (!isMarker (lit ("## Team"))) = false from by decide]
      rfl]
    rw [show List.dropWhile (fun l => !isMarker l)
        (lit ("## Team") :: ([] : Chars) :: (d.team.map memberContent ++
          (([] : Chars) :: lit ("## Tasks") :: ([] : Chars) ::
            (d.tasks.map taskBlockLines).flatten))) =
        lit ("## Team") :: ([] : Chars) :: (d.team.map memberContent ++
          (([] : Chars) :: lit ("## Tasks") :: ([] : Chars) ::
            (d.tasks.map taskBlockLines).flatten)) from by
      rw [List.dropWhile_cons]
      simp only [show (!isMarker (lit ("## Team"))) = false from by decide]
      rfl]
    rw [List.append_nil, header_reconstruct hOK.1.1]
    rw [show teamPhase
        (lit ("## Team") :: ([] : Chars) :: (d.team.map memberContent ++
          (([] : Chars) :: lit ("## Tasks") :: ([] : Chars) ::
            (d.tasks.map taskBlockLines).flatten))) =
        .ok (d.team, lit ("## Tasks") :: ([] : Chars) ::
          (d.tasks.map taskBlockLines).flatten) from by
      rw [teamPhase, if_pos (by decide)]
      rw [show teamLoop (([] : Chars) :: (d.team.map memberContent ++
          (([] : Chars) :: lit ("## Tasks") :: ([] : Chars) ::
            (d.tasks.map taskBlockLines).flatten))) =
          teamLoop (d.team.map memberContent ++
          (([] : Chars) :: lit ("## Tasks") :: ([] : Chars) ::
            (d.tasks.map taskBlockLines).flatten)) from teamLoop_blank _]
      rw [teamLoop_memberLines hOK.2.1 hMG]
      rw [show teamLoop (([] : Chars) :: lit ("## Tasks") :: ([] : Chars) ::
          (d.tasks.map taskBlockLines).flatten) =
          teamLoop (lit ("## Tasks") :: ([] : Chars) ::
            (d.tasks.map taskBlockLines).flatten) from teamLoop_blank _]
      rw [teamLoop_stop (by decide)]
      show Except.ok (d.team ++ [], lit ("## Tasks") :: ([] : Chars) ::
          (d.tasks.map taskBlockLines).flatten) =
        Except.ok (d.team, lit ("## Tasks") :: ([] : Chars) ::
          (d.tasks.map taskBlockLines).flatten)
      rw [List.append_nil]]
    dsimp only
    rw [htasksPhase]

/-! ## Facts about the parser's output shapes (extraction) -/

theorem mem_stripCR_sub {x : Char} {l : Chars} (h : x ∈ stripCR l) : x ∈ l := by
  unfold stripCR at h
  split at h
  · exact List.dropLast_subset _ h
  · exact h

theorem rustLinesGo_mem_sub {l : Chars} : ∀ {ps : List Chars}, l ∈ rustLinesGo ps →
    ∃ p ∈ ps, ∀ x ∈ l, x ∈ p := by
  intro ps
  induction ps with
  | nil => intro h; simp [rustLinesGo] at h
  | cons p rest ih =>
    intro h
    cases rest with
    | nil =>
      rw [show rustLinesGo [p] = if p = [] then [] else [p] from rfl] at h
      split at h
      · simp at h
      · simp only [List.mem_singleton] at h
        subst h
        exact ⟨l, by simp, fun x hx => hx⟩
    | cons q qs =>
      rw [show rustLinesGo (p :: q :: qs) = stripCR p :: rustLinesGo (q :: qs) from rfl] at h
      rw [List.mem_cons] at h
      rcases h with rfl | h
      · exact ⟨p, by simp, fun x hx => mem_stripCR_sub hx⟩
      · obtain ⟨p', hp', hsub⟩ := ih h
        exact ⟨p', by simp [hp'], hsub⟩

theorem rustLines_no_nl (s : Chars) : ∀ l ∈ rustLines s, '\n' ∉ l := by
  intro l hl hx
  obtain ⟨p, hp, hsub⟩ := rustLinesGo_mem_sub hl
  exact splitNL_mem_no_nl s p hp (hsub _ hx)

theorem joinLF_getLast {ls : List Chars} (h : ls ≠ []) :
    (joinLF ls).getLast? = some '\n' := by
  induction ls with
  | nil => exact absurd rfl h
  | cons l rest ih =>
    by_cases hrn : rest = []
    · subst hrn
      rw [joinLF_cons, show joinLF [] = [] from rfl,
        show (l ++ '\n' :: ([] : Chars)) = l ++ ['\n'] from rfl, List.getLast?_concat]
    · have hne : joinLF rest ≠ [] := by
        intro he
        have := ih hrn
        rw [he] at this
        simp at this
      rw [joinLF_cons, getLast?_append_right (by simp) l,
        show ('\n' :: joinLF rest : Chars) = ['\n'] ++ joinLF rest from rfl,
        getLast?_append_right hne]
      exact ih hrn

theorem splitNL_joinLF {ls : List Chars} (h : ∀ l ∈ ls, '\n' ∉ l) :
    splitNL (joinLF ls) = ls ++ [[]] := by
  induction ls with
  | nil => rfl
  | cons l rest ih =>
    rw [joinLF_cons, splitNL_append_nl (h l (by simp)),
      ih (fun x hx => h x (by simp [hx]))]
    rfl

theorem parseU32_lt {s : Chars} {n : Nat} (h : parseU32 s = some n) : n < 2 ^ 32 := by
  unfold parseU32 at h
  by_cases h1 : (if s.head? = some '+' then s.tail else s) ≠ [] ∧
      ((if s.head? = some '+' then s.tail else s).all Char.isDigit) = true
  · rw [if_pos h1] at h
    by_cases h2 : ((if s.head? = some '+' then s.tail else s).foldl
        (fun a c => a * 10 + (c.toNat - 48)) 0) < 2 ^ 32
    · rw [if_pos h2] at h
      cases h
      exact h2
    · rw [if_neg h2] at h
      cases h
  · rw [if_neg h1] at h
    cases h

theorem email_new_wf {s e : Chars} (h : Email.new s = .ok e) :
    Email.new e = .ok e ∧ e = trim s := by
  unfold Email.new at h
  dsimp only at h
  cases hsp : (trim s).splitOn '@' with
  | nil => rw [hsp] at h; cases h
  | cons a rest =>
    cases rest with
    | nil => rw [hsp] at h; cases h
    | cons b rest2 =>
      cases rest2 with
      | cons c rest3 => rw [hsp] at h; cases h
      | nil =>
        rw [hsp] at h
        dsimp only at h
        by_cases hcond : a = [] ∨ b = []
        · rw [if_pos hcond] at h
          cases h
        · rw [if_neg hcond] at h
          cases h
          refine ⟨?_, rfl⟩
          unfold Email.new
          dsimp only
          rw [trim_idem, hsp]
          dsimp only
          rw [if_neg hcond]

theorem isTaskHeading_trim (l : Chars) : isTaskHeading (trim l) = isTaskHeading l := by
  unfold isTaskHeading
  rw [trim_idem]

theorem mem_take_of_le {α} {x : α} {l : List α} {m n : Nat} (hmn : m ≤ n)
    (h : x ∈ l.take m) : x ∈ l.take n := by
  have : l.take m = (l.take n).take m := by
    rw [List.take_take, Nat.min_eq_left hmn]
  rw [this] at h
  exact List.take_subset _ _ h

theorem mem_stripPrefixAllGo_sub {x : Char} {p : Chars} :
    ∀ {fuel : Nat} {s : Chars}, x ∈ stripPrefixAllGo p fuel s → x ∈ s := by
  intro fuel
  induction fuel with
  | zero => intro s h; exact h
  | succ f ih =>
    intro s h
    rw [stripPrefixAllGo] at h
    split at h
    · exact List.drop_subset _ _ (ih h)
    · exact h

theorem mem_stripPrefixAll_sub {x : Char} {p s : Chars} (h : x ∈ stripPrefixAll p s) :
    x ∈ s := mem_stripPrefixAllGo_sub h

theorem taskTypeParse_idem (s : Chars) :
    TaskType.parse (TaskType.asStr (TaskType.parse s)) = TaskType.parse s := by
  unfold TaskType.parse
  by_cases h1 : s = lit ("Task")
  · rw [if_pos h1]; decide
  · rw [if_neg h1]
    by_cases h2 : s = lit ("Bug")
    · rw [if_pos h2]; decide
    · rw [if_neg h2]
      by_cases h3 : s = lit ("Issue")
      · rw [if_pos h3]; decide
      · rw [if_neg h3]
        by_cases h4 : s = lit ("Feature")
        · rw [if_pos h4]; decide
        · rw [if_neg h4]
          show TaskType.parse s = _
          unfold TaskType.parse
          rw [if_neg h1, if_neg h2, if_neg h3, if_neg h4]

theorem tryParseProperty_wf {s k v : Chars} (htr : trim s = s) (hnl : '\n' ∉ s)
    (h : tryParseProperty s = some (k, v)) : PropOK ⟨k, v⟩ := by
  unfold tryParseProperty at h
  cases hf : List.findIdx? (fun c => c = ':') s with
  | none => rw [hf] at h; cases h
  | some i =>
    rw [hf] at h
    dsimp only at h
    unfold PropertyKey.tryParse at h
    by_cases hvk : validKey (trim (s.take i)) = true
    · rw [if_pos hvk] at h
      dsimp only at h
      cases h
      refine ⟨hvk, ?_, trim_idem _, ?_, trim_idem _, ?_⟩
      · intro hc
        have := take_findIdx? hf ':' (mem_of_mem_trim hc)
        simp at this
      · intro hc
        exact hnl (List.take_subset _ _ (mem_of_mem_trim hc))
      · intro hc
        exact hnl (List.drop_subset _ _ (mem_of_mem_trim hc))
    · rw [if_neg hvk] at h
      cases h



/-- Every member the parser produces satisfies the member invariants
(the source line contains no newline, as `str::lines` output). -/
theorem parseTeamMember_wf {line : Chars} {m : TeamMember} (hnl : '\n' ∉ line)
    (h : parseTeamMember line = .ok (some m)) : MemberOK m := by
  simp only [parseTeamMember] at h
  have hlnl : '\n' ∉ stripPrefixAll (lit ("- ")) (stripPrefixAll (lit ("* ")) line) :=
    fun hx => hnl (mem_stripPrefixAll_sub (mem_stripPrefixAll_sub hx))
  cases hf1 : (stripPrefixAll (lit ("- ")) (stripPrefixAll (lit ("* ")) line)).findIdx?
      (fun c => c = '<') with
  | none => rw [hf1] at h; cases h
  | some es =>
    rw [hf1] at h
    dsimp only at h
    cases hf2 : (stripPrefixAll (lit ("- ")) (stripPrefixAll (lit ("* ")) line)).findIdx?
        (fun c => c = '>') with
    | none => rw [hf2] at h; cases h
    | some ee =>
      rw [hf2] at h
      dsimp only at h
      by_cases hlt : ee < es + 1
      · rw [if_pos hlt] at h
        cases h
      · rw [if_neg hlt] at h
        cases hem : Email.new (((stripPrefixAll (lit ("- "))
            (stripPrefixAll (lit ("* ")) line)).drop (es + 1)).take (ee - (es + 1))) with
        | error e => rw [hem] at h; cases h
        | ok email =>
          rw [hem] at h
          dsimp only at h
          cases h
          obtain ⟨hemi, hemtr⟩ := email_new_wf hem
          have hesle : es ≤ ee := by omega
          refine ⟨trim_idem _, ?_, ?_, ?_, hemi, ?_, ?_, ?_⟩
          · intro hc
            have := take_findIdx? hf1 '<' (mem_of_mem_trim hc)
            simp at this
          · intro hc
            have := take_findIdx? hf2 '>' (mem_take_of_le hesle (mem_of_mem_trim hc))
            simp at this
          · intro hc
            exact hlnl (List.take_subset _ _ (mem_of_mem_trim hc))
          · intro hc
            rw [hemtr] at hc
            have hc2 := mem_of_mem_trim hc
            rw [← List.drop_take] at hc2
            have := take_findIdx? hf2 '>' (List.drop_subset _ _ hc2)
            simp at this
          · intro hc
            rw [hemtr] at hc
            exact hlnl (List.drop_subset _ _
              (List.take_subset _ _ (mem_of_mem_trim hc)))
          · intro r hr
            by_cases hroom : ee + 1 <
                (stripPrefixAll (lit ("- ")) (stripPrefixAll (lit ("* ")) line)).length
            · rw [if_pos hroom] at hr
              split at hr
              · rename_i rs heq
                cases hr
                refine ⟨trim_idem _, ?_⟩
                intro hc
                have hc2 : '\n' ∈ trim ((stripPrefixAll (lit ("- "))
                    (stripPrefixAll (lit ("* ")) line)).drop (ee + 1)) := by
                  rw [heq]
                  simp [mem_of_mem_trim hc]
                exact hlnl (List.drop_subset _ _ (mem_of_mem_trim hc2))
              · cases hr
            · rw [if_neg hroom] at hr
              cases hr



/-! ## Invariants of the body/property loop -/

theorem bodyStep_inv {s : PState} {l : Chars} (hnl : '\n' ∉ l)
    (hnh : isTaskHeading l = false)
    (hB : ∀ x ∈ s.bodyLines, BodyLineOK x ∧ '\n' ∉ x)
    (hP : ∀ p ∈ s.props, PropOK p) :
    (∀ x ∈ (bodyStep s l).bodyLines, BodyLineOK x ∧ '\n' ∉ x) ∧
    (∀ p ∈ (bodyStep s l).props, PropOK p) := by
  unfold bodyStep
  by_cases ht : trim l = []
  · rw [if_pos ht]
    by_cases hin : s.inBody = true ∧ s.bodyLines ≠ []
    · rw [if_pos hin]
      refine ⟨?_, hP⟩
      intro x hx
      rw [List.mem_append] at hx
      rcases hx with hx | hx
      · exact hB x hx
      · simp only [List.mem_singleton] at hx
        subst hx
        exact ⟨Or.inl rfl, by simp⟩
    · rw [if_neg hin]
      exact ⟨hB, hP⟩
  · rw [if_neg ht]
    have hnlt : '\n' ∉ trim l := fun hx => hnl (mem_of_mem_trim hx)
    cases hq : tryParseProperty (trim l) with
    | some kv =>
      cases kv with
      | mk k v =>
        dsimp only
        refine ⟨hB, ?_⟩
        intro p hp
        rw [List.mem_append] at hp
        rcases hp with hp | hp
        · exact hP p hp
        · simp only [List.mem_singleton] at hp
          subst hp
          exact tryParseProperty_wf (trim_idem l) hnlt hq
    | none =>
      dsimp only
      by_cases hin : s.inBody = true
      · rw [if_pos hin]
        refine ⟨?_, hP⟩
        intro x hx
        rw [List.mem_append] at hx
        rcases hx with hx | hx
        · exact hB x hx
        · simp only [List.mem_singleton] at hx
          subst hx
          refine ⟨Or.inr ⟨trim_idem l, ht, hq, ?_⟩, hnlt⟩
          rw [isTaskHeading_trim]
          exact hnh
      · rw [if_neg hin]
        exact ⟨hB, hP⟩

theorem bodyStep_fold_inv {ls : List Chars} (hnl : ∀ l ∈ ls, '\n' ∉ l)
    (hnh : ∀ l ∈ ls, isTaskHeading l = false) :
    ∀ {s : PState},
    (∀ x ∈ s.bodyLines, BodyLineOK x ∧ '\n' ∉ x) → (∀ p ∈ s.props, PropOK p) →
    (∀ x ∈ (ls.foldl bodyStep s).bodyLines, BodyLineOK x ∧ '\n' ∉ x) ∧
    (∀ p ∈ (ls.foldl bodyStep s).props, PropOK p) := by
  induction ls with
  | nil => intro s hB hP; exact ⟨hB, hP⟩
  | cons l rest ih =>
    intro s hB hP
    rw [List.foldl_cons]
    obtain ⟨hB', hP'⟩ := bodyStep_inv (hnl l (by simp)) (hnh l (by simp)) hB hP
    exact ih (fun x hx => hnl x (by simp [hx])) (fun x hx => hnh x (by simp [hx])) hB' hP'

/-! ## Trimming a joined body -/

theorem joinNL_concat {xs : List Chars} (hxs : xs ≠ []) (x : Chars) :
    joinNL (xs ++ [x]) = joinNL xs ++ '\n' :: x := by
  induction xs with
  | nil => exact absurd rfl hxs
  | cons l rest ih =>
    by_cases hrn : rest = []
    · subst hrn
      rfl
    · rw [List.cons_append, joinNL_cons (by simp), joinNL_cons hrn, ih hrn]
      simp

theorem trimStart_joinNL {bls : List Chars}
    (h : ∀ l ∈ bls, l = [] ∨ (trim l = l ∧ l ≠ [])) :
    trimStart (joinNL bls) = joinNL (bls.dropWhile (fun l => l.isEmpty)) := by
  induction bls with
  | nil => rfl
  | cons l rest ih =>
    rcases h l (by simp) with rfl | ⟨htr, hne⟩
    · cases hr : rest with
      | nil => rfl
      | cons q qs =>
        rw [← hr, joinNL_cons (by rw [hr]; simp), List.nil_append,
          show trimStart ('\n' :: joinNL rest) = trimStart (joinNL rest) from by
            unfold trimStart
            rw [List.dropWhile_cons, if_pos (by decide)],
          ih (fun x hx => h x (by simp [hx]))]
        rw [List.dropWhile_cons]
        simp
    · have hd : (l :: rest).dropWhile (fun l => l.isEmpty) = l :: rest := by
        rw [List.dropWhile_cons, if_neg (by simp [hne])]
      rw [hd]
      cases hr : rest with
      | nil =>
        show trimStart l = l
        exact trimStart_eq_self htr
      | cons q qs =>
        rw [← hr, joinNL_cons (by rw [hr]; simp),
          trimStart_append (by rw [trimStart_eq_self htr]; exact hne),
          trimStart_eq_self htr]

theorem trimEnd_joinNL {bls : List Chars}
    (h : ∀ l ∈ bls, l = [] ∨ (trim l = l ∧ l ≠ [])) :
    trimEnd (joinNL bls) = joinNL ((bls.reverse.dropWhile (fun l => l.isEmpty)).reverse) := by
  induction bls using List.reverseRecOn with
  | nil => rfl
  | append_singleton xs x ih =>
    rcases h x (by simp) with rfl | ⟨htr, hne⟩
    · by_cases hxs : xs = []
      · subst hxs
        rfl
      · rw [joinNL_concat hxs,
          show (joinNL xs ++ '\n' :: ([] : Chars)) = joinNL xs ++ ['\n'] from rfl,
          trimEnd_concat_ws (by decide), ih (fun y hy => h y (by simp [hy]))]
        simp [List.dropWhile_cons]
    · have hie : x.isEmpty = false := by
        cases hx2 : x with
        | nil => exact absurd hx2 hne
        | cons a b => rfl
      by_cases hxs : xs = []
      · subst hxs
        simp only [List.nil_append]
        rw [show joinNL [x] = x from rfl, trimEnd_eq_self htr]
        simp only [List.reverse_cons, List.reverse_nil, List.nil_append,
          List.dropWhile_cons, hie, Bool.false_eq_true, if_false]
        rfl
      · have h1 : trimEnd ('\n' :: x : Chars) = '\n' :: x := by
          rw [show ('\n' :: x : Chars) = ['\n'] ++ x from rfl,
            trimEnd_append_right (by rw [trimEnd_eq_self htr]; exact hne),
            trimEnd_eq_self htr]
        rw [joinNL_concat hxs, trimEnd_append_right (by rw [h1]; simp), h1]
        simp only [List.reverse_append, List.reverse_cons, List.reverse_nil,
          List.nil_append, List.cons_append, List.dropWhile_cons, hie,
          Bool.false_eq_true, if_false]
        rw [List.reverse_reverse, joinNL_concat hxs]



/-- The trimmed joined body of well-formed collected lines satisfies
the body invariant. -/
theorem body_lines_ok {bls : List Chars}
    (h : ∀ l ∈ bls, BodyLineOK l ∧ '\n' ∉ l) :
    BodyOK (trim (joinNL bls)) := by
  have hsh : ∀ l ∈ bls, l = [] ∨ (trim l = l ∧ l ≠ []) := by
    intro l hl
    rcases (h l hl).1 with rfl | ⟨htr, hne, _, _⟩
    · exact Or.inl rfl
    · exact Or.inr ⟨htr, hne⟩
  refine ⟨trim_idem _, ?_⟩
  have hA : ∀ l ∈ bls.dropWhile (fun l => l.isEmpty), BodyLineOK l ∧ '\n' ∉ l :=
    fun l hl => h l ((List.dropWhile_sublist _).subset hl)
  have hAsh : ∀ l ∈ bls.dropWhile (fun l => l.isEmpty), l = [] ∨ (trim l = l ∧ l ≠ []) :=
    fun l hl => hsh l ((List.dropWhile_sublist _).subset hl)
  have hB : ∀ l ∈ (((bls.dropWhile (fun l => l.isEmpty)).reverse.dropWhile
      (fun l => l.isEmpty)).reverse), BodyLineOK l ∧ '\n' ∉ l := by
    intro l hl
    rw [List.mem_reverse] at hl
    exact hA l (by
      rw [← List.mem_reverse]
      exact (List.dropWhile_sublist _).subset hl)
  have htrj : trim (joinNL bls) = joinNL (((bls.dropWhile (fun l => l.isEmpty)).reverse.dropWhile
      (fun l => l.isEmpty)).reverse) := by
    show trimEnd (trimStart (joinNL bls)) = _
    rw [trimStart_joinNL hsh, trimEnd_joinNL hAsh]
  rw [htrj]
  cases hBn : ((bls.dropWhile (fun l => l.isEmpty)).reverse.dropWhile
      (fun l => l.isEmpty)).reverse with
  | nil =>
    intro l hl
    rw [show joinNL [] = [] from rfl] at hl
    rw [show splitNL [] = [[]] from rfl] at hl
    simp only [List.mem_singleton] at hl
    subst hl
    exact Or.inl rfl
  | cons b bs =>
    rw [← hBn]
    rw [splitNL_joinNL (fun l hl => (hB l hl).2) (by rw [hBn]; simp)]
    intro l hl
    exact (hB l hl).1

/-- What the two-part case of `splitn(3, ' ')` says about its input. -/
theorem splitN3_cases {s : Chars} {p0 p1 : Chars} {ps : List Chars}
    (h : splitN3 s = p0 :: p1 :: ps) :
    ' ' ∉ p0 ∧ (∃ r1, s = p0 ++ ' ' :: r1) ∧
    (ps = [] ∨ ∃ p2, ps = [p2] ∧ ∀ x ∈ p2, x ∈ s) := by
  unfold splitN3 at h
  cases hs1 : splitFirst ' ' s with
  | none =>
    rw [hs1] at h
    cases h
  | some ar =>
    cases ar with
    | mk a r =>
      rw [hs1] at h
      dsimp only at h
      obtain ⟨hse, hsp⟩ := splitFirst_eq_some hs1
      cases hs2 : splitFirst ' ' r with
      | none =>
        rw [hs2] at h
        cases h
        exact ⟨hsp, ⟨p1, hse⟩, Or.inl rfl⟩
      | some br2 =>
        cases br2 with
        | mk b r2 =>
          rw [hs2] at h
          dsimp only at h
          cases h
          obtain ⟨hre, _⟩ := splitFirst_eq_some hs2
          refine ⟨hsp, ⟨r, hse⟩, Or.inr ⟨r2, rfl, ?_⟩⟩
          intro x hx
          rw [hse, hre]
          simp [hx]



theorem taskType_facts {p0 : Chars} (hsp : ' ' ∉ p0) (hnl : '\n' ∉ p0) (hne : p0 ≠ [])
    (hh : ∀ c, p0.head? = some c → isWS c = false) :
    (TaskType.parse p0).asStr ≠ [] ∧ ' ' ∉ (TaskType.parse p0).asStr ∧
    '\n' ∉ (TaskType.parse p0).asStr ∧
    (∀ c, (TaskType.parse p0).asStr.head? = some c → isWS c = false) ∧
    TaskType.parse ((TaskType.parse p0).asStr) = TaskType.parse p0 := by
  by_cases h1 : p0 = lit ("Task")
  · rw [show TaskType.parse p0 = .task from by rw [TaskType.parse, if_pos h1]]
    exact ⟨by decide, by decide, by decide, fun c hc => by cases hc; decide, by decide⟩
  · by_cases h2 : p0 = lit ("Bug")
    · rw [show TaskType.parse p0 = .bug from by
        rw [TaskType.parse, if_neg h1, if_pos h2]]
      exact ⟨by decide, by decide, by decide, fun c hc => by cases hc; decide, by decide⟩
    · by_cases h3 : p0 = lit ("Issue")
      · rw [show TaskType.parse p0 = .issue from by
          rw [TaskType.parse, if_neg h1, if_neg h2, if_pos h3]]
        exact ⟨by decide, by decide, by decide, fun c hc => by cases hc; decide, by decide⟩
      · by_cases h4 : p0 = lit ("Feature")
        · rw [show TaskType.parse p0 = .feature from by
            rw [TaskType.parse, if_neg h1, if_neg h2, if_neg h3, if_pos h4]]
          exact ⟨by decide, by decide, by decide, fun c hc => by cases hc; decide, by decide⟩
        · have hC : TaskType.parse p0 = .custom p0 := by
            rw [TaskType.parse, if_neg h1, if_neg h2, if_neg h3, if_neg h4]
          rw [hC]
          exact ⟨hne, hsp, hnl, hh,
            by rw [show (TaskType.custom p0).asStr = p0 from rfl]; exact hC⟩

/-- Every task the parser produces from a block satisfies the task
invariants. -/
theorem parseTask_wf {first : Chars} {rest : List Chars} {t : Task}
    (hnl : ∀ l ∈ first :: rest, '\n' ∉ l)
    (hnh : ∀ l ∈ rest, isTaskHeading l = false)
    (h : parseTask (first :: rest) = .ok (some t)) : TaskOK t := by
  simp only [parseTask] at h
  cases hsp : splitN3 (trim (stripPrefixAll (lit ("### ")) first)) with
  | nil => rw [hsp] at h; cases h
  | cons p0 rest1 =>
    cases rest1 with
    | nil => rw [hsp] at h; cases h
    | cons p1 ps =>
      rw [hsp] at h
      dsimp only at h
      cases hu : parseU32 p1 with
      | none => rw [hu] at h; cases h
      | some n =>
        rw [hu] at h
        dsimp only at h
        by_cases hn0 : n = 0
        · rw [show TaskId.new n = .error .parseError from by
            rw [TaskId.new, if_pos hn0]] at h
          cases h
        · rw [show TaskId.new n = .ok ⟨n⟩ from by rw [TaskId.new, if_neg hn0]] at h
          dsimp only at h
          obtain ⟨hp0sp, ⟨r1, hr1⟩, hps⟩ := splitN3_cases hsp
          have hp0ne : p0 ≠ [] := by
            intro h0
            have hhd : (trim (stripPrefixAll (lit ("### ")) first)).head? = some ' ' := by
              rw [hr1, h0]
              rfl
            have := trim_head? hhd
            simp [isWS] at this
          have hp0h : ∀ c, p0.head? = some c → isWS c = false := by
            intro c hc
            refine trim_head? (s := stripPrefixAll (lit ("### ")) first) ?_
            rw [hr1, head?_append_left hp0ne]
            exact hc
          have hp0nl : '\n' ∉ p0 := by
            intro hm
            apply hnl first (by simp)
            have hm2 : '\n' ∈ trim (stripPrefixAll (lit ("### ")) first) := by
              rw [hr1]
              simp [hm]
            exact mem_stripPrefixAll_sub (mem_of_mem_trim hm2)
          obtain ⟨hty1, hty2, hty3, hty4, hty5⟩ := taskType_facts hp0sp hp0nl hp0ne hp0h
          obtain ⟨hstB, hstP⟩ := bodyStep_fold_inv
            (fun l hl => hnl l (by simp [hl])) hnh
            (s := ⟨true, [], []⟩) (by intro x hx; simp at hx) (by intro p hp; simp at hp)
          rcases hps with rfl | ⟨p2, rfl, hmem2⟩
          · cases h
            exact ⟨by show 1 ≤ n; omega, parseU32_lt hu, hty1, hty2, hty3, hty4, hty5,
              rfl, by simp, body_lines_ok hstB, hstP⟩
          · cases h
            refine ⟨by show 1 ≤ n; omega, parseU32_lt hu, hty1, hty2, hty3, hty4, hty5,
              trim_idem _, ?_, body_lines_ok hstB, hstP⟩
            intro hm
            apply hnl first (by simp)
            have hm2 : '\n' ∈ p2 := mem_stripPrefixAll_sub (mem_of_mem_trim hm)
            exact mem_stripPrefixAll_sub (mem_of_mem_trim (hmem2 _ hm2))



/-- Members collected by the team loop satisfy the member invariants,
and the returned remainder consists of input lines. -/
theorem teamLoop_wf {ls : List Chars} (hnl : ∀ l ∈ ls, '\n' ∉ l)
    {p : List TeamMember × List Chars} (h : teamLoop ls = .ok p) :
    (∀ m ∈ p.1, MemberOK m) ∧ (∀ l ∈ p.2, l ∈ ls) := by
  induction ls generalizing p with
  | nil =>
    cases h
    exact ⟨by intro m hm; simp at hm, by intro l hl; simp at hl⟩
  | cons l rest ih =>
    rw [teamLoop] at h
    split at h
    · cases h
      exact ⟨by intro m hm; simp at hm, fun x hx => hx⟩
    · split at h
      · cases hpm : parseTeamMember (trim l) with
        | error e => rw [hpm] at h; cases h
        | ok o =>
          rw [hpm] at h
          cases o with
          | none =>
            dsimp only at h
            obtain ⟨h1, h2⟩ := ih (fun x hx => hnl x (by simp [hx])) h
            exact ⟨h1, fun x hx => by simp [h2 x hx]⟩
          | some m =>
            dsimp only at h
            cases hrec : teamLoop rest with
            | error e => rw [hrec] at h; cases h
            | ok q =>
              rw [hrec] at h
              dsimp only at h
              cases h
              obtain ⟨h1, h2⟩ := ih (fun x hx => hnl x (by simp [hx])) hrec
              refine ⟨?_, fun x hx => by simp [h2 x hx]⟩
              intro m' hm'
              rw [List.mem_cons] at hm'
              rcases hm' with rfl | hm'
              · exact parseTeamMember_wf
                  (fun hx => hnl l (by simp) (mem_of_mem_trim hx)) hpm
              · exact h1 m' hm'
      · obtain ⟨h1, h2⟩ := ih (fun x hx => hnl x (by simp [hx])) h
        exact ⟨h1, fun x hx => by simp [h2 x hx]⟩

/-- Tasks produced by the tasks loop satisfy the task invariants. -/
theorem tasksGo_wf {ls : List Chars} (hnl : ∀ l ∈ ls, '\n' ∉ l) :
    ∀ {acc : Option (List Chars)}
    (hacc : ∀ blk, acc = some blk →
      (∃ b0 bs, blk = b0 :: bs ∧ (∀ l ∈ bs, isTaskHeading l = false)) ∧
      (∀ l ∈ blk, '\n' ∉ l))
    {ts : List Task}, tasksGo ls acc = .ok ts → ∀ t ∈ ts, TaskOK t := by
  induction ls with
  | nil =>
    intro acc hacc ts h t ht
    cases acc with
    | none => cases h; simp at ht
    | some blk =>
      obtain ⟨⟨b0, bs, rfl, hbs⟩, hbnl⟩ := hacc _ rfl
      cases hpt : parseTask (b0 :: bs) with
      | error e => rw [show tasksGo [] (some (b0 :: bs)) = (parseTask (b0 :: bs)).map
          (fun o => o.toList) from rfl, hpt] at h; cases h
      | ok o =>
        rw [show tasksGo [] (some (b0 :: bs)) = (parseTask (b0 :: bs)).map
          (fun o => o.toList) from rfl, hpt] at h
        cases h
        cases o with
        | none => simp at ht
        | some t0 =>
          simp only [Option.toList, List.mem_singleton] at ht
          subst ht
          exact parseTask_wf hbnl hbs hpt
  | cons lh rest ih =>
    intro acc hacc ts h t ht
    cases acc with
    | none =>
      rw [tasksGo] at h
      split at h
      · refine ih (fun x hx => hnl x (by simp [hx])) ?_ h t ht
        intro blk hblk
        cases hblk
        exact ⟨⟨lh, [], rfl, by intro x hx; simp at hx⟩,
          by intro x hx; simp only [List.mem_singleton] at hx; subst hx
             exact hnl _ (by simp)⟩
      · exact ih (fun x hx => hnl x (by simp [hx])) (by intro blk hblk; cases hblk)
          h t ht
    | some blk =>
      obtain ⟨⟨b0, bs, rfl, hbs⟩, hbnl⟩ := hacc _ rfl
      rw [tasksGo] at h
      split at h
      · cases hpt : parseTask (b0 :: bs) with
        | error e => rw [hpt] at h; cases h
        | ok o =>
          rw [hpt] at h
          dsimp only at h
          cases hrec : tasksGo rest (some [lh]) with
          | error e => rw [hrec] at h; cases h
          | ok ts2 =>
            rw [hrec] at h
            cases h
            rw [List.mem_append] at ht
            rcases ht with ht | ht
            · cases o with
              | none => simp at ht
              | some t0 =>
                simp only [Option.toList, List.mem_singleton] at ht
                subst ht
                exact parseTask_wf hbnl hbs hpt
            · refine ih (fun x hx => hnl x (by simp [hx])) ?_ hrec t ht
              intro blk hblk
              cases hblk
              exact ⟨⟨lh, [], rfl, by intro x hx; simp at hx⟩,
                by intro x hx; simp only [List.mem_singleton] at hx; subst hx
                   exact hnl _ (by simp)⟩
      · rename_i hcond
        refine ih (fun x hx => hnl x (by simp [hx])) ?_ h t ht
        intro blk hblk
        cases hblk
        refine ⟨⟨b0, bs ++ [lh], by simp, ?_⟩, ?_⟩
        · intro x hx
          rw [List.mem_append] at hx
          rcases hx with hx | hx
          · exact hbs x hx
          · simp only [List.mem_singleton] at hx
            subst hx
            simpa using hcond
        · intro x hx
          rw [List.mem_append] at hx
          rcases hx with hx | hx
          · exact hbnl x hx
          · simp only [List.mem_singleton] at hx
            subst hx
            exact hnl _ (by simp)

/-- Every document the parser produces satisfies the document
invariants. -/
theorem parse_wf {content : Chars} {d : FrumpDoc} (h : parse content = .ok d) :
    DocOK d := by
  simp only [parse] at h
  have hdnl : ∀ x ∈ (rustLines content).dropWhile (fun l => !isMarker l), '\n' ∉ x :=
    fun x hx => rustLines_no_nl content x ((List.dropWhile_sublist _).subset hx)
  cases htp : teamPhase ((rustLines content).dropWhile (fun l => !isMarker l)) with
  | error e => rw [htp] at h; cases h
  | ok p =>
    rw [htp] at h
    dsimp only at h
    cases p with
    | mk team rest2 =>
      have hteam_rest : (∀ m ∈ team, MemberOK m) ∧ (∀ x ∈ rest2, '\n' ∉ x) := by
        unfold teamPhase at htp
        cases hdw : (rustLines content).dropWhile (fun l => !isMarker l) with
        | nil =>
          rw [hdw] at htp
          cases htp
          exact ⟨by intro m hm; simp at hm, by intro x hx; simp at hx⟩
        | cons l0 ls0 =>
          rw [hdw] at htp
          dsimp only at htp
          split at htp
          · obtain ⟨h1, h2⟩ := teamLoop_wf
              (fun x hx => hdnl x (by rw [hdw]; simp [hx])) htp
            exact ⟨h1, fun x hx => hdnl x (by rw [hdw]; simp [h2 x hx])⟩
          · cases htp
            exact ⟨by intro m hm; simp at hm,
              fun x hx => hdnl x (by rw [hdw]; exact hx)⟩
      cases hts : tasksPhase rest2 with
      | error e => rw [hts] at h; cases h
      | ok tasks =>
        rw [hts] at h
        dsimp only at h
        cases h
        have htasks : ∀ t ∈ tasks, TaskOK t := by
          unfold tasksPhase at hts
          cases hr2 : rest2 with
          | nil =>
            rw [hr2] at hts
            cases hts
            intro t ht
            simp at ht
          | cons l1 ls1 =>
            rw [hr2] at hts
            dsimp only at hts
            split at hts
            · exact tasksGo_wf
                (fun x hx => hteam_rest.2 x (by rw [hr2]; simp [hx]))
                (by intro blk hblk; cases hblk) hts
            · cases hts
              intro t ht
              simp at ht
        refine ⟨⟨?_, ?_⟩, hteam_rest.1, htasks⟩
        · cases hTW : (rustLines content).takeWhile (fun l => !isMarker l) with
          | nil => exact Or.inl rfl
          | cons a as =>
            right
            exact joinLF_getLast (by simp)
        · intro l hl
          have hHnl : ∀ x ∈ (rustLines content).takeWhile (fun l => !isMarker l),
              '\n' ∉ x :=
            fun x hx => rustLines_no_nl content x ((List.takeWhile_sublist _).subset hx)
          rw [splitNL_joinLF hHnl, List.dropLast_concat] at hl
          have := List.mem_takeWhile_imp hl
          simp only [Bool.not_eq_true'] at this
          exact this

/-! ## Claim C1 -/

/-- C1 (amended): parse-then-serialize-then-parse recovers the team
and task lists exactly, for parser-produced documents whose header
lines do not end in a carriage return, whose tasks have a non-empty
subject that does not start with `- ` and a type token other than
`###`, and whose member names are not `*` or `-` and do not start
with `* ` or `- `. -/
theorem parse_serialize_roundtrip (content : Chars) (d : FrumpDoc)
    (hp : parse content = .ok d) (hHG : HeaderGuard d)
    (hTG : ∀ t ∈ d.tasks, TaskGuard t) (hMG : ∀ m ∈ d.team, MemberGuard m) :
    ∃ d2, parse (serialize d) = .ok d2 ∧ d2.team = d.team ∧ d2.tasks = d.tasks :=
  ⟨⟨d.header, d.team, d.tasks⟩, parse_serialize (parse_wf hp) hHG hTG hMG, rfl, rfl⟩

/-- Witness for C1's amended theorem at a concrete document with a
header, one member and one task. -/
theorem parse_serialize_roundtrip_witness :
    ∃ d2, parse (serialize ⟨lit ("Intro\n"),
        [⟨lit ("Ann"), lit ("a@b"), none⟩],
        [⟨⟨1⟩, .task, lit ("Fix"), [], []⟩]⟩) = .ok d2 ∧
      d2.team = [⟨lit ("Ann"), lit ("a@b"), none⟩] ∧
      d2.tasks = [⟨⟨1⟩, .task, lit ("Fix"), [], []⟩] :=
  parse_serialize_roundtrip
    (lit ("Intro\n## Team\n* Ann <a@b>\n\n## Tasks\n\n### Task 1 - Fix\n"))
    ⟨lit ("Intro\n"), [⟨lit ("Ann"), lit ("a@b"), none⟩],
      [⟨⟨1⟩, .task, lit ("Fix"), [], []⟩]⟩
    (by decide) (by unfold HeaderGuard; decide) (by unfold TaskGuard; decide)
    (by unfold MemberGuard; decide)

/-! ## Claim theorems -/

/-- C8 (counterexample): at the largest `u32` value, `new` succeeds
but `next().value()` is `0`, not `value + 1` — the increment in
`TaskId::next` overflows. -/
theorem identifier_next_overflow_counterexample :
    TaskId.new (2 ^ 32 - 1) = .ok ⟨2 ^ 32 - 1⟩ ∧
    (TaskId.next ⟨2 ^ 32 - 1⟩).val = 0 ∧
    (TaskId.next ⟨2 ^ 32 - 1⟩).val ≠ 2 ^ 32 - 1 + 1 := by
  refine ⟨?_, ?_, ?_⟩ <;> simp [TaskId.new, TaskId.next]

/-- C8 (amended): `Identifier::new(0)` fails; `new(n)` succeeds for
every positive `n`; `next()` yields `n + 1` whenever `n + 1` fits in a
`u32`, and wraps to `0` at `2 ^ 32 - 1`. -/
theorem identifier_new_next :
    TaskId.new 0 = .error .parseError ∧
    (∀ n : Nat, 0 < n → TaskId.new n = .ok ⟨n⟩) ∧
    (∀ n : Nat, n + 1 < 2 ^ 32 → (TaskId.next ⟨n⟩).val = n + 1) ∧
    (TaskId.next ⟨2 ^ 32 - 1⟩).val = 0 := by
  refine ⟨rfl, fun n hn => ?_, fun n hn => ?_, by simp [TaskId.next]⟩
  · simp [TaskId.new]; omega
  · simp only [TaskId.next]
    omega

/-- Witness for C8 at `n = 3`. -/
theorem identifier_new_next_witness :
    TaskId.new 3 = .ok ⟨3⟩ ∧ (TaskId.next ⟨3⟩).val = 4 :=
  ⟨identifier_new_next.2.1 3 (by norm_num), identifier_new_next.2.2.1 3 (by norm_num)⟩

/-- C10: `remove` deletes exactly the first task whose identifier
matches, returns it, and keeps every other task (later duplicates
included) in their original order; with no match it returns `none`
and leaves the collection unchanged. -/
theorem remove_first_match (ts : List Task) (id : TaskId) :
    ((∀ t ∈ ts, t.id ≠ id) → removeTask ts id = (none, ts)) ∧
    (∀ i t, ts[i]? = some t → t.id = id →
      (∀ j, j < i → ∀ u, ts[j]? = some u → u.id ≠ id) →
      removeTask ts id = (some t, ts.take i ++ ts.drop (i + 1))) := by
  constructor
  · intro h
    unfold removeTask
    rw [List.findIdx?_eq_none_iff.mpr (fun t ht => by simp [h t ht])]
  · intro i t hget hid hmin
    unfold removeTask
    rw [findIdx?_first (fun t => t.id = id) ts i t hget (by simp [hid])
      (fun j hj u hu => by simp [hmin j hj u hu])]
    dsimp only
    rw [hget, List.eraseIdx_eq_take_drop_succ]

/-- Witness for C10: removing id 1 from tasks with ids `[1, 2, 1]`
removes only the first and keeps the later duplicate. -/
theorem remove_first_match_witness :
    removeTask [⟨⟨1⟩, .task, lit ("a"), [], []⟩, ⟨⟨2⟩, .task, lit ("b"), [], []⟩,
        ⟨⟨1⟩, .task, lit ("c"), [], []⟩] ⟨1⟩ =
      (some ⟨⟨1⟩, .task, lit ("a"), [], []⟩,
       [⟨⟨2⟩, .task, lit ("b"), [], []⟩, ⟨⟨1⟩, .task, lit ("c"), [], []⟩]) := by
  have := (remove_first_match [⟨⟨1⟩, .task, lit ("a"), [], []⟩, ⟨⟨2⟩, .task, lit ("b"), [], []⟩,
      ⟨⟨1⟩, .task, lit ("c"), [], []⟩] ⟨1⟩).2 0 ⟨⟨1⟩, .task, lit ("a"), [], []⟩
    (by decide) (by decide) (by omega)
  simpa using this

/-- C6: the body/property classifier is a two-state latch with no way
back: once `inBody` is false it stays false; it turns false exactly
when a line matches the property grammar; after the latch a non-blank
non-property line changes nothing (silently dropped); before the latch
such a line is appended to the body; a property-grammar line latches
and appends the property. -/
theorem latch_classification (s : PState) (l : Chars) :
    ((bodyStep s l).inBody = false ↔ (s.inBody = false ∨ (tryParseProperty (trim l)).isSome)) ∧
    (s.inBody = false → (bodyStep s l).bodyLines = s.bodyLines) ∧
    (s.inBody = false → trim l ≠ [] → tryParseProperty (trim l) = none → bodyStep s l = s) ∧
    (s.inBody = true → trim l ≠ [] → tryParseProperty (trim l) = none →
      bodyStep s l = { s with bodyLines := s.bodyLines ++ [trim l] }) ∧
    (∀ k v, tryParseProperty (trim l) = some (k, v) →
      bodyStep s l = { s with inBody := false, props := s.props ++ [⟨k, v⟩] }) := by
  by_cases hb : trim l = []
  · have hp : tryParseProperty (trim l) = none := by
      rw [hb]; rfl
    refine ⟨?_, ?_, ?_, ?_, ?_⟩ <;>
      simp [bodyStep, hb, hp] <;> intros <;> try simp_all
    · cases hs : s.inBody <;> by_cases hbl : s.bodyLines = [] <;> simp [hs, hbl]
  · rcases hp : tryParseProperty (trim l) with _ | ⟨k, v⟩
    · refine ⟨?_, ?_, ?_, ?_, ?_⟩ <;> cases hs : s.inBody <;>
        simp [bodyStep, hb, hp, hs]
    · refine ⟨?_, ?_, ?_, ?_, ?_⟩ <;> cases hs : s.inBody <;>
        simp [bodyStep, hb, hp, hs]

/-- Witness for C6: before the latch, a malformed `key: value` line
(lowercase key) is kept as body text. -/
theorem latch_classification_witness :
    bodyStep ⟨true, [], []⟩ (lit ("key: v")) = ⟨true, [lit ("key: v")], []⟩ :=
  (latch_classification ⟨true, [], []⟩ (lit ("key: v"))).2.2.2.1 rfl (by decide) (by decide)

theorem taskHistoryGo_spec (id : TaskId) (revs : List Rev) (prev : Bool) :
    (taskHistoryGo id revs prev).map (fun c => c.changeType) =
      specClassify prev (revs.map (present id)) := by
  induction revs generalizing prev with
  | nil => cases prev <;> rfl
  | cons r rest ih =>
    cases hpres : present id r <;> cases prev <;>
      simp [taskHistoryGo, specClassify, hpres, commitToInfo, ih]

/-- C2: `task_history` classifies each revision from the per-revision
presence booleans exactly as the spec's edge rules say, starting from
previous-present `false`; and the presence sequence
`[false, true, true, false]` yields exactly
`[Created, Modified, Deleted]`. -/
theorem history_classification :
    (∀ (revs : List Rev) (id : TaskId),
      (taskHistory revs id).map (fun c => c.changeType) =
        specClassify false (revs.map (present id))) ∧
    specClassify false [false, true, true, false] = [.created, .modified, .deleted] :=
  ⟨fun revs id => taskHistoryGo_spec id revs false, rfl⟩


/-! ## Conflict-resolution lemmas (C4) -/

theorem mem_indicesOf (ts : List Task) (id : TaskId) (i : Nat) :
    i ∈ indicesOf ts id ↔ ∃ t, ts[i]? = some t ∧ t.id = id := by
  unfold indicesOf
  simp only [List.mem_map, List.mem_filter]
  constructor
  · rintro ⟨⟨j, t⟩, ⟨hmem, hid⟩, rfl⟩
    have h2 := List.mk_mem_enumFrom_iff_le_and_getElem?_sub.mp hmem
    exact ⟨t, by simpa using h2.2, by simpa using hid⟩
  · rintro ⟨t, hget, hid⟩
    exact ⟨(i, t), ⟨List.mk_mem_enumFrom_iff_le_and_getElem?_sub.mpr
      ⟨Nat.zero_le _, by simpa using hget⟩, by simp [hid]⟩, rfl⟩

theorem enumFrom_filter_map_fst (ts : List Task) (id : TaskId) (n : Nat) :
    ((List.enumFrom n ts).filter (fun p => p.2.id = id)).map (fun p => p.1) =
      (((List.enumFrom 0 ts).filter (fun p => p.2.id = id)).map (fun p => p.1)).map (· + n) := by
  induction ts generalizing n with
  | nil => simp
  | cons t ts ih =>
    rw [List.enumFrom_cons, List.enumFrom_cons]
    by_cases h : t.id = id
    · simp only [List.filter_cons, h, decide_True, if_true, List.map_cons,
        ih (n + 1), ih 1, List.map_map]
      refine congrArg₂ _ (by omega) (congrArg₂ _ ?_ rfl)
      funext x
      simp only [Function.comp_apply]
      omega
    · simp only [List.filter_cons, h, decide_False, Bool.false_eq_true, if_false,
        ih (n + 1), ih 1, List.map_map]
      refine congrArg₂ _ ?_ rfl
      funext x
      simp only [Function.comp_apply]
      omega

theorem indicesOf_cons (t : Task) (ts : List Task) (id : TaskId) :
    indicesOf (t :: ts) id =
      (if t.id = id then [0] else []) ++ (indicesOf ts id).map (· + 1) := by
  unfold indicesOf
  rw [show (t :: ts).enum = (0, t) :: List.enumFrom 1 ts from List.enum_cons]
  by_cases h : t.id = id
  · simp only [List.filter_cons, h, decide_True, if_true, List.map_cons, if_true,
      List.cons_append, List.nil_append]
    rw [show ts.enum = List.enumFrom 0 ts from rfl, enumFrom_filter_map_fst ts id 1]
  · simp only [List.filter_cons, h, decide_False, Bool.false_eq_true, if_false,
      List.nil_append]
    rw [show ts.enum = List.enumFrom 0 ts from rfl, enumFrom_filter_map_fst ts id 1]

theorem indicesOf_pairwise (ts : List Task) (id : TaskId) :
    List.Pairwise (· < ·) (indicesOf ts id) := by
  induction ts with
  | nil => simp [indicesOf]
  | cons t ts ih =>
    rw [indicesOf_cons]
    by_cases h : t.id = id <;> simp only [h, if_true, if_false, List.nil_append,
      List.cons_append, List.singleton_append, decide_True, decide_False]
    · constructor
      · intro x hx
        simp only [List.mem_map] at hx
        omega
      · exact (List.pairwise_map).mpr (ih.imp (by omega))
    · exact (List.pairwise_map).mpr (ih.imp (by omega))

theorem mem_of_getElem?' {α} {l : List α} {n : Nat} {a : α} (h : l[n]? = some a) : a ∈ l := by
  rw [List.getElem?_eq_some_iff] at h
  obtain ⟨hn, rfl⟩ := h
  exact List.getElem_mem hn

theorem modifyAt_length (ts : List Task) (i : Nat) (f : Task → Task) :
    (modifyAt ts i f).length = ts.length := by
  induction ts generalizing i with
  | nil => rfl
  | cons t ts ih => cases i <;> simp [modifyAt, ih]

theorem modifyAt_get_ne (ts : List Task) (i j : Nat) (f : Task → Task) (h : j ≠ i) :
    (modifyAt ts i f)[j]? = ts[j]? := by
  induction ts generalizing i j with
  | nil => rfl
  | cons t ts ih =>
    cases i with
    | zero =>
      cases j with
      | zero => omega
      | succ j => simp [modifyAt]
    | succ i =>
      cases j with
      | zero => simp [modifyAt]
      | succ j => simpa [modifyAt] using ih i j (by omega)

theorem modifyAt_get_self (ts : List Task) (i : Nat) (f : Task → Task) :
    (modifyAt ts i f)[i]? = (ts[i]?).map f := by
  induction ts generalizing i with
  | nil => rfl
  | cons t ts ih => cases i <;> simp [modifyAt, ih]

theorem applyRenum_get_not_mem (idxs : List Nat) (ts : List Task) (nxt : TaskId) (j : Nat)
    (h : j ∉ idxs) : (applyRenum ts nxt idxs).1[j]? = ts[j]? := by
  induction idxs generalizing ts nxt with
  | nil => rfl
  | cons i rest ih =>
    simp only [List.mem_cons, not_or] at h
    simp only [applyRenum]
    cases hti : ts[i]? with
    | none => exact ih ts nxt h.2
    | some t =>
      rw [ih _ _ h.2, modifyAt_get_ne ts i j _ h.1]

theorem applyRenum_renums (idxs : List Nat) : ∀ (ts : List Task) (v : Nat),
    idxs.Nodup → (∀ i ∈ idxs, i < ts.length) → v + idxs.length ≤ 2 ^ 32 →
    ((applyRenum ts ⟨v⟩ idxs).2.map (fun r => r.2.1.val) = List.range' v idxs.length) ∧
    (∀ (k j : Nat), idxs[k]? = some j →
      (applyRenum ts ⟨v⟩ idxs).1[j]? = (ts[j]?).map (fun t => { t with id := ⟨v + k⟩ })) := by
  induction idxs with
  | nil => exact fun ts v _ _ _ => ⟨rfl, fun k j h => by simp at h⟩
  | cons i rest ih =>
    intro ts v hnd hin hov
    have hi : i < ts.length := hin i (by simp)
    have ht : ts[i]? = some ts[i] := List.getElem?_eq_getElem hi
    have hirest : i ∉ rest := by
      simp only [List.nodup_cons] at hnd
      exact hnd.1
    have hndr : rest.Nodup := by
      simp only [List.nodup_cons] at hnd
      exact hnd.2
    have hmod : (v + 1) % 2 ^ 32 = v + 1 ∨ rest = [] := by
      cases rest with
      | nil => exact Or.inr rfl
      | cons a b =>
        left
        apply Nat.mod_eq_of_lt
        simp only [List.length_cons] at hov
        omega
    rcases hmod with hmod | hrnil
    · have hnext : TaskId.next ⟨v⟩ = ⟨v + 1⟩ := by
        simp only [TaskId.next, hmod]
      have hih := ih (modifyAt ts i fun u => { u with id := ⟨v⟩ }) (v + 1)
        hndr
        (fun j hj => by rw [modifyAt_length]; exact hin j (by simp [hj]))
        (by simp only [List.length_cons] at hov; omega)
      constructor
      · simp only [applyRenum, ht]
        rw [hnext]
        simp only [List.map_cons, hih.1, List.length_cons, List.range'_succ]
      · intro k j hk
        cases k with
        | zero =>
          rw [List.getElem?_cons_zero] at hk
          cases hk
          simp only [applyRenum, ht]
          rw [hnext, applyRenum_get_not_mem rest _ _ i hirest]
          rw [modifyAt_get_self ts i _, ht]
          rfl
        | succ k =>
          rw [List.getElem?_cons_succ] at hk
          have hkmem : j ∈ rest := mem_of_getElem?' hk
          have hji : j ≠ i := fun he => hirest (he ▸ hkmem)
          simp only [applyRenum, ht]
          rw [hnext]
          rw [hih.2 k j hk, modifyAt_get_ne ts i j _ hji]
          have harith : v + 1 + k = v + (k + 1) := by omega
          rw [harith]
    · subst hrnil
      constructor
      · simp only [applyRenum, ht]
        rfl
      · intro k j hk
        cases k with
        | zero =>
          rw [List.getElem?_cons_zero] at hk
          cases hk
          simp only [applyRenum, ht]
          rw [modifyAt_get_self ts i _, ht]
          rfl
        | succ k => simp at hk

theorem indicesOf_nodup (ts : List Task) (id : TaskId) : (indicesOf ts id).Nodup :=
  (indicesOf_pairwise ts id).imp (fun h => Nat.ne_of_lt h)

theorem lt_of_mem_drop_one_indicesOf (ts : List Task) (id : TaskId) (i : Nat)
    (h : i ∈ (indicesOf ts id).drop 1) : ∃ h0, h0 < i ∧ h0 ∈ indicesOf ts id := by
  cases hl : indicesOf ts id with
  | nil => rw [hl] at h; simp at h
  | cons h0 tl =>
    rw [hl] at h
    simp only [List.drop_one, List.tail_cons] at h
    have hp := indicesOf_pairwise ts id
    rw [hl] at hp
    exact ⟨h0, List.rel_of_pairwise_cons hp h, by simp [hl]⟩

/-- C4: with the duplicate groups processed in any order (`order` is
the `HashMap`'s unspecified iteration order over the duplicated
identifiers) and the fresh identifiers fitting in `u32`, conflict
resolution leaves the first occurrence (by original position) of every
identifier unchanged, and hands out fresh identifiers
`max + 1, max + 2, ...` in one ascending sequence across all groups:
the k-th renumbered occurrence (in processing order) receives
`max + 1 + k`. -/
theorem resolve_conflicts_spec (ts : List Task) (order : List TaskId) (m : Nat)
    (hmax : maxIdVal ts = some m)
    (hord : ∀ id, id ∈ order ↔ id ∈ dupIds ts)
    (hnd : order.Nodup)
    (hov : m + ((order.map (fun id => (indicesOf ts id).drop 1)).flatten).length < 2 ^ 32) :
    ∃ ts2 ren, resolveConflicts order ts = .ok (ts2, ren) ∧
      (∀ (i : Nat) (t : Task), ts[i]? = some t →
        (∀ (j : Nat), j < i → ∀ (u : Task), ts[j]? = some u → u.id ≠ t.id) →
        ts2[i]? = some t) ∧
      ren.map (fun r => r.2.1.val) =
        List.range' (m + 1) ((order.map (fun id => (indicesOf ts id).drop 1)).flatten).length ∧
      (∀ (k j : Nat), ((order.map (fun id => (indicesOf ts id).drop 1)).flatten)[k]? = some j →
        ts2[j]? = (ts[j]?).map (fun t => ({ t with id := ⟨m + 1 + k⟩ } : Task))) := by
  by_cases ho : order = []
  · subst ho
    refine ⟨ts, [], by simp [resolveConflicts], fun i t hget _ => hget, by simp, by simp⟩
  · have hbound : ∀ j ∈ (order.map (fun id => (indicesOf ts id).drop 1)).flatten, j < ts.length := by
      intro j hj
      rw [List.mem_flatten] at hj
      obtain ⟨L, hL, hjL⟩ := hj
      rw [List.mem_map] at hL
      obtain ⟨gid, _, rfl⟩ := hL
      have hj2 : j ∈ indicesOf ts gid := List.drop_subset 1 _ hjL
      rw [mem_indicesOf] at hj2
      obtain ⟨u, hu, _⟩ := hj2
      rw [List.getElem?_eq_some_iff] at hu
      exact hu.1
    have hnodupAll : ((order.map (fun id => (indicesOf ts id).drop 1)).flatten).Nodup := by
      rw [List.nodup_flatten]
      constructor
      · intro L hL
        rw [List.mem_map] at hL
        obtain ⟨gid, _, rfl⟩ := hL
        exact (indicesOf_nodup ts gid).sublist (List.drop_sublist 1 _)
      · rw [List.pairwise_map]
        refine hnd.imp_of_mem ?_
        intro a b _ _ hab
        intro x hxa hxb
        have ha : x ∈ indicesOf ts a := List.drop_subset 1 _ hxa
        have hb : x ∈ indicesOf ts b := List.drop_subset 1 _ hxb
        rw [mem_indicesOf] at ha hb
        obtain ⟨u, hu, hua⟩ := ha
        obtain ⟨u2, hu2, hub⟩ := hb
        rw [hu] at hu2
        cases hu2
        exact hab (hua ▸ hub ▸ rfl)
    by_cases hA : ((order.map (fun id => (indicesOf ts id).drop 1)).flatten) = []
    · refine ⟨ts, [], ?_, fun i t hget _ => hget, ?_, ?_⟩
      · simp only [resolveConflicts, if_neg ho, hmax, hA]
        rfl
      · rw [hA]
        rfl
      · intro k j hk
        rw [hA] at hk
        simp at hk
    · have hlen : 1 ≤ ((order.map (fun id => (indicesOf ts id).drop 1)).flatten).length :=
        List.length_pos.mpr hA
      have hkey := applyRenum_renums ((order.map (fun id => (indicesOf ts id).drop 1)).flatten)
        ts (m + 1) hnodupAll hbound (by omega)
      have hnext : TaskId.next ⟨m⟩ = ⟨m + 1⟩ := by
        have h1 : (m + 1) % 2 ^ 32 = m + 1 := Nat.mod_eq_of_lt (by omega)
        simp only [TaskId.next, h1]
      refine ⟨_, _, ?_, ?_, hkey.1, hkey.2⟩
      · simp only [resolveConflicts, if_neg ho, hmax, hnext]
      · intro i t hget hmin
        have hnotmem : i ∉ (order.map (fun id => (indicesOf ts id).drop 1)).flatten := by
          intro hmem
          rw [List.mem_flatten] at hmem
          obtain ⟨L, hL, hiL⟩ := hmem
          rw [List.mem_map] at hL
          obtain ⟨gid, _, rfl⟩ := hL
          have hi2 : i ∈ indicesOf ts gid := List.drop_subset 1 _ hiL
          rw [mem_indicesOf] at hi2
          obtain ⟨u, hu, hug⟩ := hi2
          rw [hget] at hu
          cases hu
          obtain ⟨h0, hlt0, h0mem⟩ := lt_of_mem_drop_one_indicesOf ts gid i hiL
          rw [mem_indicesOf] at h0mem
          obtain ⟨u', hu', hug'⟩ := h0mem
          exact hmin h0 hlt0 u' hu' (by rw [hug', ← hug])
        rw [applyRenum_get_not_mem _ _ _ _ hnotmem, hget]



/-- Witness for C4 on the claim's example: the first occurrence keeps
identifier 2 and the second is renumbered to 6. -/
theorem resolve_conflicts_spec_witness :
    ∃ ts2 ren, resolveConflicts [⟨2⟩] exC4 = .ok (ts2, ren) ∧
      ts2[0]? = some ⟨⟨2⟩, .task, lit ("Fix A"), [], []⟩ ∧
      ts2[1]? = some ⟨⟨6⟩, .task, lit ("Fix B"), [], []⟩ ∧
      ren.map (fun r => r.2.1.val) = [6] := by
  obtain ⟨ts2, ren, hok, hfirst, hren, hrenum⟩ :=
    resolve_conflicts_spec exC4 [⟨2⟩] 5 (by decide)
      (fun id => by rw [show dupIds exC4 = [⟨2⟩] from by decide])
      (by decide) (by decide)
  refine ⟨ts2, ren, hok, ?_, ?_, ?_⟩
  · exact hfirst 0 _ (by decide) (fun j hj u hu => by omega)
  · have h1 := hrenum 0 1 (by decide)
    simpa [exC4] using h1
  · rw [hren]
    decide

/-- C5 (counterexample): the heading is split on the space character,
not on whitespace — on the heading `### Task\t1` the whitespace-split
tokens are `[Task, 1]` (two tokens, id parses to 1), so the claim
predicts success, yet `parse_task` fails: `splitn(3, ' ')` sees a
single token `Task\t1`. -/
theorem heading_whitespace_counterexample :
    splitWS (trim (stripPrefixAll (lit ("### ")) (lit ("### Task\t1")))) =
      [lit ("Task"), lit ("1")] ∧
    parseU32 (lit ("1")) = some 1 ∧
    parseTask [lit ("### Task\t1")] = .error .parseError := by decide

/-- C5 (amended): after stripping the leading `### `, the heading is
split with `splitn(3, ' ')` — on the space character, empty tokens
kept — into at most three parts `[type, id, rest]`; the block fails
exactly when fewer than two parts are present, or the id part does not
parse as a `u32`, or it parses to zero; otherwise the parts determine
the type, identifier, and subject. -/
theorem heading_parse_space_split (first : Chars) (rest : List Chars) :
    (match splitN3 (trim (stripPrefixAll (lit ("### ")) first)) with
     | p0 :: p1 :: ps =>
       (match parseU32 p1 with
        | none => parseTask (first :: rest) = .error .parseError
        | some 0 => parseTask (first :: rest) = .error .parseError
        | some (n + 1) =>
          ∃ t, parseTask (first :: rest) = .ok (some t) ∧
            t.taskType = TaskType.parse p0 ∧ t.id = ⟨n + 1⟩ ∧
            t.subject = (match ps with
              | [] => ([] : Chars)
              | p2 :: _ => trim (stripPrefixAll (lit ("- ")) p2)) : Prop)
     | _ => parseTask (first :: rest) = .error .parseError) := by
  rcases h : splitN3 (trim (stripPrefixAll (lit ("### ")) first)) with _ | ⟨p0, _ | ⟨p1, ps⟩⟩
  · simp only [parseTask, h]
  · simp only [parseTask, h]
  · rcases hu : parseU32 p1 with _ | ⟨_ | n⟩ <;>
      simp only [parseTask, h, hu, TaskId.new] <;> simp

/-- C7 (counterexample): on the input `# T` (no trailing newline, no
section marker) the stored header is `# T\n`, which is not
byte-for-byte the header region of the input. -/
theorem header_verbatim_counterexample :
    parse (lit ("# T")) = .ok ⟨lit ("# T\n"), [], []⟩ ∧
    lit ("# T\n") ≠ lit ("# T") := by decide

theorem header_takeWhile (content : Chars) (d : FrumpDoc) (h : parse content = .ok d) :
    d.header = joinLF ((rustLines content).takeWhile (fun l => !isMarker l)) := by
  simp only [parse] at h
  rcases h1 : teamPhase ((rustLines content).dropWhile (fun l => !isMarker l)) with e | ⟨team, rest2⟩ <;>
    rw [h1] at h <;> dsimp only at h
  · simp at h
  · rcases h2 : tasksPhase rest2 with e | tasks <;> rw [h2] at h <;> dsimp only at h
    · simp at h
    · cases h
      rfl

/-- C7 (amended): the header consists of exactly the lines preceding
the first marker line (trimmed, upper-cased form starting with
`## TEAM` or `## TASKS`), each stored with a single `\n` terminator
re-appended; when those input lines use plain `\n` endings and the
region is followed by a marker line, this is byte-for-byte the input
region. -/
theorem header_region_lines :
    (∀ content d, parse content = .ok d →
      d.header = joinLF ((rustLines content).takeWhile (fun l => !isMarker l))) ∧
    (∀ (hls : List Chars) (rest : Chars),
      (∀ l ∈ hls, ¬ ('\n' ∈ l) ∧ stripCR l = l ∧ isMarker l = false) →
      (rustLines rest).head?.all isMarker = true →
      ∀ d, parse (joinLF hls ++ rest) = .ok d → d.header = joinLF hls) := by
  refine ⟨header_takeWhile, fun hls rest hOK hmk d h => ?_⟩
  rw [header_takeWhile _ _ h]
  rw [rustLines_joinLF_append (fun l hl => (hOK l hl).1)]
  have hmap : hls.map stripCR = hls :=
    (List.map_congr_left (fun l hl => (hOK l hl).2.1)).trans (List.map_id hls)
  rw [hmap]
  rw [takeWhile_append_all (fun l hl => by simp [(hOK l hl).2.2])]
  have hz : (rustLines rest).takeWhile (fun l => !isMarker l) = [] := by
    cases hr : rustLines rest with
    | nil => rfl
    | cons m ms =>
      rw [hr] at hmk
      simp only [List.head?, Option.all_some] at hmk
      simp [List.takeWhile_cons, hmk]
  rw [hz, List.append_nil]

/-- Witness for C7 on a concrete document. -/
theorem header_region_lines_witness :
    (⟨lit ("# X\n"), [], []⟩ : FrumpDoc).header =
      joinLF ((rustLines (lit ("# X\n## Tasks\n"))).takeWhile (fun l => !isMarker l)) :=
  header_region_lines.1 (lit ("# X\n## Tasks\n")) ⟨lit ("# X\n"), [], []⟩ (by decide)

/-- C9 (code evaluation): parsing panics on a team-member line whose
first `>` precedes its first `<` — the slice
`line[email_start + 1..email_end]` in `parse_team_member` has its
start beyond its end. -/
theorem parse_panic_eval :
    parse (lit ("## Team\n* > x <a@b>\n")) = .error .panicked := by decide

/-- C3 (code evaluation): with task 1's subject `Old` in the older
revision and `New` in the newer one, and the task deleted from the
current document, `deleted_tasks` reports the *newest* subject, not
the first-seen one the claim requires: the walk omits
`Sort::REVERSE`, so it visits revisions newest first. -/
theorem deleted_tasks_newest_first_eval :
    deletedTasks
      [⟨lit ("h1"), lit ("alice"), 1, lit ("add"), some (lit ("## Tasks\n\n### Task 1 - Old\n"))⟩,
       ⟨lit ("h2"), lit ("bob"), 2, lit ("edit"), some (lit ("## Tasks\n\n### Task 1 - New\n"))⟩]
      (lit ("## Tasks\n")) = .ok [(⟨1⟩, .task, lit ("New"))] ∧
    lit ("New") ≠ lit ("Old") := by decide

/-- C1 (counterexample): the document parsed from
`## Tasks\n### Task 1\n` has one task with empty subject; serializing
writes `### Task 1 - ` and reparsing yields subject `-`, so
`parse(serialize(d))` is not structurally equal to `d`. -/
theorem roundtrip_empty_subject_counterexample :
    parse (lit ("## Tasks\n### Task 1\n")) = .ok ⟨[], [], [⟨⟨1⟩, .task, [], [], []⟩]⟩ ∧
    parse (serialize ⟨[], [], [⟨⟨1⟩, .task, [], [], []⟩]⟩) =
      .ok ⟨[], [], [⟨⟨1⟩, .task, lit ("-"), [], []⟩]⟩ ∧
    (lit ("-") : Chars) ≠ [] := by decide

end Frump
